import Mathlib

/-!
# Genealogical tree traversal with Composite and Visitor (`genes.cpp`)

A shallow embedding of `genes.cpp`.  The C++ program allocates `Person` objects on the
heap and links them with raw pointers (`spouse_`, `father_`, `mother_`, `children_`);
spouse links are cyclic by construction.  The embedding therefore keeps an explicit heap:

* a pointer is `Option Nat` (`none` is `nullptr`, `some a` is the address `a`);
* the heap is the list of allocated objects, the address of an object being its index;
* any access the C++ standard leaves undefined (dereferencing `nullptr` or an address that
  holds no object, using a member of `Man` through a pointer to a `Woman` or the reverse,
  indexing a vector out of range) is a `Fault`;
* `cout` is the string of all characters written so far; `endl` writes a line feed;
* `accept` is recursive over the children lists, which may be cyclic, so it carries a
  recursion-depth budget and returns `none` when the budget is exhausted.
-/

namespace Genes

/-! ## Person model -/

/-- A `Person *`: `none` is `nullptr`. -/
abbrev Ptr := Option Nat

/-- Undefined accesses of the C++ program, made explicit. -/
inductive Fault where
  | nullDeref
  | dangling
  | badCast
  | outOfRange
  deriving DecidableEq, Repr

/-- The two concrete classes; the fields follow the order of the constructors' arguments
    (`Man(lastName, firstName, spouse, father, mother)`,
    `Woman(children, firstName, spouse, father, mother)`). -/
inductive Person where
  | Man (lastName : String) (firstName : String) (spouse father mother : Ptr)
  | Woman (children : List Ptr) (firstName : String) (spouse father mother : Ptr)
  deriving DecidableEq, Repr

/-- The objects allocated so far; `new` appends. -/
abbrev Heap := List Person

namespace Person

def getFirstName : Person → String
  | Man _ f _ _ _ => f
  | Woman _ f _ _ _ => f

def getSpouse : Person → Ptr
  | Man _ _ s _ _ => s
  | Woman _ _ s _ _ => s

def getFather : Person → Ptr
  | Man _ _ _ f _ => f
  | Woman _ _ _ f _ => f

def getMother : Person → Ptr
  | Man _ _ _ _ m => m
  | Woman _ _ _ _ m => m

/-- The assignment `spouse_ = spouse` on one object. -/
def withSpouse : Person → Ptr → Person
  | Man l f _ fa mo, s => Man l f s fa mo
  | Woman cs f _ fa mo, s => Woman cs f s fa mo

/-- Member `Man::getLastName`; reached through a `Man *` that points to a `Woman` it is
    undefined. -/
def getLastName : Person → Except Fault String
  | Man l _ _ _ _ => .ok l
  | Woman _ _ _ _ _ => .error .badCast

/-- Member `Woman::getChildren`; reached through a `Woman *` that points to a `Man` it is
    undefined. -/
def getChildren : Person → Except Fault (List Ptr)
  | Woman cs _ _ _ _ => .ok cs
  | Man _ _ _ _ _ => .error .badCast

end Person

/-- The object a pointer points to (`p->`). -/
def deref (h : Heap) : Ptr → Except Fault Person
  | none => .error .nullDeref
  | some a =>
    match h[a]? with
    | some p => .ok p
    | none => .error .dangling

/-- The object behind a `Man *` (the target of `static_cast<Man *>`). -/
def derefMan (h : Heap) (p : Ptr) : Except Fault Person :=
  match deref h p with
  | .ok (.Man l f s fa mo) => .ok (.Man l f s fa mo)
  | .ok (.Woman _ _ _ _ _) => .error .badCast
  | .error e => .error e

/-- The object behind a `Woman *` (the target of `static_cast<Woman *>`). -/
def derefWoman (h : Heap) (p : Ptr) : Except Fault Person :=
  match deref h p with
  | .ok (.Woman cs f s fa mo) => .ok (.Woman cs f s fa mo)
  | .ok (.Man _ _ _ _ _) => .error .badCast
  | .error e => .error e

/-- The expression `new T(...)`: the object is appended, its address is returned. -/
def alloc (h : Heap) (p : Person) : Heap × Ptr := (h ++ [p], some h.length)

/-- Method `Person::setSpouse`, `a->setSpouse(spouse)`. -/
def setSpouse (h : Heap) (a : Ptr) (spouse : Ptr) : Except Fault Heap :=
  match a with
  | none => .error .nullDeref
  | some i =>
    match h[i]? with
    | some p => .ok (h.set i (p.withSpouse spouse))
    | none => .error .dangling

/-- Method `Woman::setChildren`, `w->setChildren(children)`. -/
def setChildren (h : Heap) (w : Ptr) (children : List Ptr) : Except Fault Heap :=
  match w with
  | none => .error .nullDeref
  | some i =>
    match h[i]? with
    | some (.Woman _ f s fa mo) => .ok (h.set i (.Woman children f s fa mo))
    | some (.Man _ _ _ _ _) => .error .badCast
    | none => .error .dangling

/-! ## Visitors and traversal -/

/-- The abstract visitor: one operation per concrete class.  A visitor reads the tree and
    updates its own state `σ` (its members, or the stream it writes to). -/
structure PersonVisitor (σ : Type) where
  visitMan : Heap → Ptr → σ → Except Fault σ
  visitWoman : Heap → Ptr → σ → Except Fault σ

/-- The loop `for (auto child : children_) child->accept(visitor)`, over the recursive call
    `rec`; a fault or an exhausted budget in one child ends the loop. -/
def acceptChildren {σ : Type} (rec : Ptr → σ → Option (Except Fault σ)) :
    List Ptr → σ → Option (Except Fault σ)
  | [], s => some (.ok s)
  | c :: cs, s =>
    match rec c s with
    | some (.ok s1) => acceptChildren rec cs s1
    | some (.error e) => some (.error e)
    | none => none

/-- The virtual call `p->accept(visitor)`: `Man::accept` or `Woman::accept` by the dynamic
    type of `*p`.  The first argument bounds the recursion depth. -/
def accept {σ : Type} (v : PersonVisitor σ) (h : Heap) :
    Nat → Ptr → σ → Option (Except Fault σ)
  | 0, _, _ => none
  | n + 1, p, s =>
    match deref h p with
    | .error e => some (.error e)
    | .ok (.Man _ _ _ _ _) => some (v.visitMan h p s)
    | .ok (.Woman children _ _ _ _) =>
      match v.visitWoman h p s with
      | .error e => some (.error e)
      | .ok s1 => acceptChildren (accept v h n) children s1

/-! ## Concrete visitors -/

/-- Class `NamePrinter`; the state is `cout`. -/
def NamePrinter : PersonVisitor String where
  visitMan h m out :=
    match derefMan h m with
    | .error e => .error e
    | .ok pm =>
      match pm.getLastName with
      | .error e => .error e
      | .ok last => .ok (out ++ pm.getFirstName ++ " " ++ last ++ "\n")
  visitWoman h w out :=
    match derefWoman h w with
    | .error e => .error e
    | .ok pw =>
      let out1 := out ++ pw.getFirstName ++ " "
      if pw.getSpouse ≠ none then
        match derefMan h pw.getSpouse with
        | .error e => .error e
        | .ok sp =>
          match sp.getLastName with
          | .error e => .error e
          | .ok last => .ok (out1 ++ last ++ "\n")
      else if pw.getFather ≠ none then
        match derefMan h pw.getFather with
        | .error e => .error e
        | .ok fa =>
          match fa.getLastName with
          | .error e => .error e
          | .ok last => .ok (out1 ++ last ++ "\n")
      else .ok (out1 ++ "Doe" ++ "\n")

/-- Method `MaidenNamePrinter::visit(Woman *)`. -/
def MaidenNamePrinter.visitWoman (h : Heap) (w : Ptr) (out : String) : Except Fault String :=
  match derefWoman h w with
  | .error e => .error e
  | .ok pw =>
    let out1 := out ++ pw.getFirstName ++ " "
    if pw.getFather ≠ none then
      match derefMan h pw.getFather with
      | .error e => .error e
      | .ok fa =>
        match fa.getLastName with
        | .error e => .error e
        | .ok last => .ok (out1 ++ last ++ "\n")
    else .ok (out1 ++ "Doe " ++ "\n")

/-- Method `MaidenNamePrinter::visit(Man *)`. -/
def MaidenNamePrinter.visitMan (h : Heap) (m : Ptr) (out : String) : Except Fault String :=
  match derefMan h m with
  | .error e => .error e
  | .ok pm =>
    if pm.getSpouse ≠ none then MaidenNamePrinter.visitWoman h pm.getSpouse out
    else .ok out

/-- Class `MaidenNamePrinter`; the state is `cout`. -/
def MaidenNamePrinter : PersonVisitor String where
  visitMan := MaidenNamePrinter.visitMan
  visitWoman := MaidenNamePrinter.visitWoman

/-- Method `ChildrenPrinter::printNames`. -/
def ChildrenPrinter.printNames (h : Heap) : List Ptr → String → Except Fault String
  | [], out => .ok out
  | c :: cs, out =>
    match deref h c with
    | .error e => .error e
    | .ok pc => ChildrenPrinter.printNames h cs (out ++ pc.getFirstName ++ ", ")

/-- Class `ChildrenPrinter`; the state is `cout`. -/
def ChildrenPrinter : PersonVisitor String where
  visitMan h m out :=
    match derefMan h m with
    | .error e => .error e
    | .ok pm =>
      let out1 := out ++ pm.getFirstName ++ ": "
      if pm.getSpouse ≠ none then
        match derefWoman h pm.getSpouse with
        | .error e => .error e
        | .ok sp =>
          match sp.getChildren with
          | .error e => .error e
          | .ok cs =>
            match ChildrenPrinter.printNames h cs out1 with
            | .error e => .error e
            | .ok out2 => .ok (out2 ++ "\n")
      else .ok (out1 ++ "\n")
  visitWoman h w out :=
    match derefWoman h w with
    | .error e => .error e
    | .ok pw =>
      let out1 := out ++ pw.getFirstName ++ ": "
      match pw.getChildren with
      | .error e => .error e
      | .ok cs =>
        match ChildrenPrinter.printNames h cs out1 with
        | .error e => .error e
        | .ok out2 => .ok (out2 ++ "\n")

/-- The members of a `NameHolder` object. -/
structure NameHolder where
  name_ : String
  married_ : Bool
  parentsNames_ : List String
  siblingsNames_ : List String
  deriving DecidableEq, Repr

/-- The assignment `v[i] = x` on a `vector<string>`; outside the vector it is undefined. -/
def vecSet (v : List String) (i : Nat) (x : String) : Except Fault (List String) :=
  if i < v.length then .ok (v.set i x) else .error .outOfRange

/-- The read `v[i]` on a `vector<string>`; outside the vector it is undefined. -/
def vecGet (v : List String) (i : Nat) : Except Fault String :=
  match v[i]? with
  | some x => .ok x
  | none => .error .outOfRange

/-- Constructor `NameHolder::NameHolder`: `name_("")`, `married_(false)`, the two vectors
    default-constructed, so empty. -/
def NameHolder.new : NameHolder :=
  { name_ := "", married_ := false, parentsNames_ := [], siblingsNames_ := [] }

/-- The statements both `NameHolder::visit` methods run for a person with no spouse, on the
    person's father pointer `father` (lines 140-146 for a `Man`, 156-162 for a `Woman`; the
    two are the same text). -/
def NameHolder.recordParents (h : Heap) (father : Ptr) (nh : NameHolder) :
    Except Fault NameHolder :=
  -- `if (getFather() != nullptr) parentsNames_[0] = father first + " " + father last`
  let slot0 : Except Fault NameHolder :=
    if father ≠ none then
      match derefMan h father with
      | .error e => .error e
      | .ok fa =>
        match fa.getLastName with
        | .error e => .error e
        | .ok flast =>
          match vecSet nh.parentsNames_ 0 (fa.getFirstName ++ " " ++ flast) with
          | .error e => .error e
          | .ok v => .ok { nh with parentsNames_ := v }
    else .ok nh
  match slot0 with
  | .error e => .error e
  | .ok nh1 =>
    -- `if (static_cast<Man *>(getFather())->getSpouse() != nullptr)`: no test of the father
    match derefMan h father with
    | .error e => .error e
    | .ok fa =>
      if fa.getSpouse ≠ none then
        match deref h fa.getSpouse with
        | .error e => .error e
        | .ok sp =>
          match vecSet nh1.parentsNames_ 1 (sp.getFirstName ++ " ") with
          | .error e => .error e
          | .ok v1 =>
            match fa.getLastName with
            | .error e => .error e
            | .ok flast =>
              match vecGet v1 1 with
              | .error e => .error e
              | .ok cur =>
                match vecSet v1 1 (cur ++ flast) with
                | .error e => .error e
                | .ok v2 => .ok { nh1 with parentsNames_ := v2 }
      else .ok nh1

/-- Method `NameHolder::visit(Man *)`. -/
def NameHolder.visitMan (h : Heap) (m : Ptr) (nh : NameHolder) : Except Fault NameHolder :=
  match derefMan h m with
  | .error e => .error e
  | .ok pm =>
    match pm.getLastName with
    | .error e => .error e
    | .ok last =>
      let nh1 := { nh with name_ := pm.getFirstName ++ " " ++ last }
      if pm.getSpouse ≠ none then .ok { nh1 with married_ := true }
      else NameHolder.recordParents h pm.getFather nh1

/-- Method `NameHolder::visit(Woman *)`. -/
def NameHolder.visitWoman (h : Heap) (w : Ptr) (nh : NameHolder) : Except Fault NameHolder :=
  match derefWoman h w with
  | .error e => .error e
  | .ok pw =>
    let name0 := pw.getFirstName ++ " "
    let name1 : Except Fault String :=
      if pw.getSpouse ≠ none then
        match derefMan h pw.getSpouse with
        | .error e => .error e
        | .ok sp =>
          match sp.getLastName with
          | .error e => .error e
          | .ok last => .ok (name0 ++ last)
      else if pw.getFather ≠ none then
        match derefMan h pw.getFather with
        | .error e => .error e
        | .ok fa =>
          match fa.getLastName with
          | .error e => .error e
          | .ok last => .ok (name0 ++ last)
      else .ok (name0 ++ "Doe")
    match name1 with
    | .error e => .error e
    | .ok name =>
      let nh1 := { nh with name_ := name }
      if pw.getSpouse ≠ none then .ok { nh1 with married_ := true }
      else NameHolder.recordParents h pw.getFather nh1

/-- Class `NameHolder` as a visitor; the state is the object itself. -/
def NameHolderVisitor : PersonVisitor NameHolder where
  visitMan := NameHolder.visitMan
  visitWoman := NameHolder.visitWoman

/-- A visitor that keeps the record of the visited persons, in order (the address of
    each). -/
def Recorder : PersonVisitor (List Nat) where
  visitMan _ m log :=
    match m with
    | some a => .ok (log ++ [a])
    | none => .error .nullDeref
  visitWoman _ w log :=
    match w with
    | some a => .ok (log ++ [a])
    | none => .error .nullDeref

/-- A visitor instrumented with the record of its own invocations: each `visit` runs the
    `visit` of `v` and, when that returns, appends the address of the visited person. -/
def Logged {σ : Type} (v : PersonVisitor σ) : PersonVisitor (σ × List Nat) where
  visitMan h m s :=
    match v.visitMan h m s.1 with
    | .error e => .error e
    | .ok s1 =>
      match m with
      | some a => .ok (s1, s.2 ++ [a])
      | none => .error .nullDeref
  visitWoman h w s :=
    match v.visitWoman h w s.1 with
    | .error e => .error e
    | .ok s1 =>
      match w with
      | some a => .ok (s1, s.2 ++ [a])
      | none => .error .nullDeref

/-! ## The example tree of `main` -/

/-- The pointers `main` keeps in local variables, with the heap they point into. -/
structure Family where
  heap : Heap
  js : Ptr
  ms : Ptr
  ps : Ptr
  wj : Ptr
  mj : Ptr
  jj : Ptr
  deriving DecidableEq, Repr

/-- The statements of `main` that set up the genealogical tree, in program order. -/
def mainTree : Except Fault Family := do
  -- first generation
  let (h, js) := alloc [] (.Man "Smith" "James" none none none)
  let (h, ms) := alloc h (.Woman [] "Mary" none none none)
  let h ← setSpouse h ms js
  let h ← setSpouse h js ms
  -- second generation
  let (h, ps) := alloc h (.Woman [] "Patricia" none js ms)
  let (h, wj) := alloc h (.Man "Johnson" "William" none none none)
  let h ← setSpouse h ps wj
  let h ← setSpouse h wj ps
  let (h, robert) := alloc h (.Man "Smith" "Robert" none js ms)
  let (h, linda) := alloc h (.Woman [] "Linda" none js ms)
  let marysKids := [ps, robert, linda]
  let h ← setChildren h ms marysKids
  -- third generation
  let (h, mj) := alloc h (.Man "Johnson" "Michael" none wj ps)
  let (h, barbara) := alloc h (.Woman [] "Barbara" none wj ps)
  let patsKids := [mj, barbara]
  let h ← setChildren h ps patsKids
  let (h, jj) := alloc h (.Woman [] "Jennifer" none none none)
  let (h, susan) := alloc h (.Woman [] "Susan" none mj jj)
  let jensKids := [susan]
  let h ← setSpouse h jj mj
  let h ← setSpouse h mj jj
  let h ← setChildren h jj jensKids
  pure { heap := h, js := js, ms := ms, ps := ps, wj := wj, mj := mj, jj := jj }

/-- The tree `main` has built when the traversals start, written out. -/
def exampleHeap : Heap :=
  [ .Man "Smith" "James" (some 1) none none,
    .Woman [some 2, some 4, some 5] "Mary" (some 0) none none,
    .Woman [some 6, some 7] "Patricia" (some 3) (some 0) (some 1),
    .Man "Johnson" "William" (some 2) none none,
    .Man "Smith" "Robert" none (some 0) (some 1),
    .Woman [] "Linda" none (some 0) (some 1),
    .Man "Johnson" "Michael" (some 8) (some 3) (some 2),
    .Woman [] "Barbara" none (some 3) (some 2),
    .Woman [some 9] "Jennifer" (some 6) none none,
    .Woman [] "Susan" none (some 6) (some 8) ]

/-- The call `ms->accept(v)` of `main` on the tree it has built, from an empty stream. -/
def mainAccept {σ : Type} (v : PersonVisitor σ) (fuel : Nat) (s : σ) :
    Option (Except Fault σ) :=
  match mainTree with
  | .ok t => accept v t.heap fuel t.ms s
  | .error e => some (.error e)


/-! ## Vocabulary of the statements -/

/-- The text of a children listing: each name followed by a comma and a space. -/
def nameListing : List String → String
  | [] => ""
  | n :: ns => n ++ ", " ++ nameListing ns

/-- The first names of the persons `cs` points to are `names`, entry by entry. -/
def FirstNames (h : Heap) (cs : List Ptr) (names : List String) : Prop :=
  List.Forall₂ (fun c nm => ∃ pc, deref h c = .ok pc ∧ pc.getFirstName = nm) cs names

/-- The children list stored at address `w`: empty when `w` holds a `Man` or no object. -/
def childrenOf (h : Heap) (w : Nat) : List Ptr :=
  match h[w]? with
  | some (.Woman cs _ _ _ _) => cs
  | _ => []

/-- The person at `c` is an entry of the children list of the woman at `w`. -/
def ChildOf (h : Heap) (c w : Nat) : Prop := some c ∈ childrenOf h w

/-- The person at `x` is the person at `a` or is reached from her through children
    lists. -/
def Reach (h : Heap) (x a : Nat) : Prop := Relation.ReflTransGen (ChildOf h) x a

/-- No woman is reached from herself through children lists. -/
def Acyclic (h : Heap) : Prop := ∀ w, ¬ Relation.TransGen (ChildOf h) w w

/-- Every entry of every children list points to an object of the heap. -/
def ChildrenValid (h : Heap) : Prop :=
  ∀ w, ∀ p ∈ childrenOf h w, ∃ c, p = some c ∧ c < h.length

/-- Each person is in at most one children list, and at most once in it. -/
def OneList (h : Heap) : Prop :=
  (∀ c w1 w2, ChildOf h c w1 → ChildOf h c w2 → w1 = w2) ∧ ∀ w, (childrenOf h w).Nodup

/-- Children are recorded only in the mother's list: the mother link of every entry of a
    children list points back to the owner of the list. -/
def UnderMother (h : Heap) : Prop :=
  ∀ c w, ChildOf h c w → ∃ pc, h[c]? = some pc ∧ pc.getMother = some w

/-- The person at `a` is the father or the mother of the person at `x`. -/
def ParentOf (h : Heap) (a x : Nat) : Prop :=
  ∃ px, h[x]? = some px ∧ (px.getFather = some a ∨ px.getMother = some a)

/-- The person at `x` is reached from the person at `a` by following father and mother
    links downwards, in one step or more. -/
def Descendant (h : Heap) (x a : Nat) : Prop :=
  Relation.TransGen (fun y b => ParentOf h b y) x a

/-- The value `NameHolder::visit(Man *)` assigns to `name_` (line 138). -/
def NameHolder.nameMan (h : Heap) (m : Ptr) : Except Fault String :=
  match derefMan h m with
  | .error e => .error e
  | .ok pm =>
    match pm.getLastName with
    | .error e => .error e
    | .ok last => .ok (pm.getFirstName ++ " " ++ last)

/-- The value `NameHolder::visit(Woman *)` leaves in `name_` (lines 151-154). -/
def NameHolder.nameWoman (h : Heap) (w : Ptr) : Except Fault String :=
  match derefWoman h w with
  | .error e => .error e
  | .ok pw =>
    let name0 := pw.getFirstName ++ " "
    if pw.getSpouse ≠ none then
      match derefMan h pw.getSpouse with
      | .error e => .error e
      | .ok sp =>
        match sp.getLastName with
        | .error e => .error e
        | .ok last => .ok (name0 ++ last)
    else if pw.getFather ≠ none then
      match derefMan h pw.getFather with
      | .error e => .error e
      | .ok fa =>
        match fa.getLastName with
        | .error e => .error e
        | .ok last => .ok (name0 ++ last)
    else .ok (name0 ++ "Doe")

/-- The dynamic type of an object: `true` for a `Man`. -/
def Person.isMan : Person → Bool
  | .Man _ _ _ _ _ => true
  | .Woman _ _ _ _ _ => false

/-- The pointer points to a `Man` of the heap. -/
def pointsToMan (h : Heap) (p : Ptr) : Bool :=
  match deref h p with
  | .ok pp => pp.isMan
  | .error _ => false

/-- The pointer points to a `Woman` of the heap. -/
def pointsToWoman (h : Heap) (p : Ptr) : Bool :=
  match deref h p with
  | .ok pp => !pp.isMan
  | .error _ => false

/-- The pointer points to an object of the heap. -/
def pointsToPerson (h : Heap) (p : Ptr) : Bool :=
  match deref h p with
  | .ok _ => true
  | .error _ => false

/-- The links of one person are as the data model has them: the spouse link is absent or
    points to a person of the other sex, the father link is absent or points to a `Man`,
    the mother link is absent or points to a `Woman`, and every entry of a children list
    points to a person. -/
def linksOk (h : Heap) : Person → Bool
  | .Man _ _ sp fa mo =>
    (sp.isNone || pointsToWoman h sp) && (fa.isNone || pointsToMan h fa) &&
      (mo.isNone || pointsToWoman h mo)
  | .Woman cs _ sp fa mo =>
    (sp.isNone || pointsToMan h sp) && (fa.isNone || pointsToMan h fa) &&
      (mo.isNone || pointsToWoman h mo) && cs.all (pointsToPerson h)

/-- Every person of the heap has links as the data model has them. -/
def WellTyped (h : Heap) : Prop := h.all (linksOk h) = true

/-- A visitor that only emits output: each visit appends text to the stream, and the text
    does not depend on what the stream already holds. -/
def OnlyEmits (v : PersonVisitor String) : Prop :=
  ∀ (h : Heap) (p : Ptr) (out : String),
    v.visitMan h p out = (v.visitMan h p "").map (out ++ ·) ∧
    v.visitWoman h p out = (v.visitWoman h p "").map (out ++ ·)

/-- Two objects are the same person up to names and spouse, father and mother links: both
    are a `Man`, or both are a `Woman` with the same children list. -/
def Person.sameChildren : Person → Person → Prop
  | .Man _ _ _ _ _, .Man _ _ _ _ _ => True
  | .Woman cs1 _ _ _ _, .Woman cs2 _ _ _ _ => cs1 = cs2
  | _, _ => False

/-- Two trees have the same persons at the same addresses and the same children lists;
    they may differ in names and in spouse, father and mother links. -/
def SameTree (h1 h2 : Heap) : Prop := List.Forall₂ Person.sameChildren h1 h2

/-- The sum of the node counts `f` gives for the entries of a children list; there is none
    when an entry is `nullptr` or has no count. -/
def forestNodes (f : Nat → Option Nat) : List Ptr → Option Nat
  | [] => some 0
  | none :: _ => none
  | some c :: cs =>
    match f c, forestNodes f cs with
    | some k1, some k2 => some (k1 + k2)
    | _, _ => none

/-- The number of nodes of the children-list tree under the person at `a`, explored to
    the depth given first: the person, plus the nodes under each entry of the children
    list; a `Man` has no children list and counts as a leaf. -/
def treeNodes (h : Heap) : Nat → Nat → Option Nat
  | 0, _ => none
  | n + 1, a =>
    if a < h.length then
      match forestNodes (treeNodes h n) (childrenOf h a) with
      | some k => some (k + 1)
      | none => none
    else none

/-! ## Fuel: a traversal that finishes within a depth finishes within any larger one -/

theorem acceptChildren_mono {σ : Type} (f g : Ptr → σ → Option (Except Fault σ))
    (hfg : ∀ c s r, f c s = some r → g c s = some r) :
    ∀ (cs : List Ptr) (s : σ) (r : Except Fault σ),
      acceptChildren f cs s = some r → acceptChildren g cs s = some r := by
  intro cs
  induction cs with
  | nil => intro s r hr; simpa [acceptChildren] using hr
  | cons c cs ih =>
    intro s r hr
    unfold acceptChildren at hr ⊢
    cases hf : f c s with
    | none => simp [hf] at hr
    | some r1 =>
      rw [hfg c s r1 hf]
      cases r1 with
      | error e => simpa [hf] using hr
      | ok s1 =>
        simp only [hf] at hr
        exact ih s1 r hr

theorem accept_succ {σ : Type} (v : PersonVisitor σ) (h : Heap) :
    ∀ (n : Nat) (p : Ptr) (s : σ) (r : Except Fault σ),
      accept v h n p s = some r → accept v h (n + 1) p s = some r := by
  intro n
  induction n with
  | zero => intro p s r hr; simp [accept] at hr
  | succ n ih =>
    intro p s r hr
    unfold accept at hr ⊢
    cases hd : deref h p with
    | error e => simpa [hd] using hr
    | ok pp =>
      cases pp with
      | Man l f sp fa mo => simpa [hd] using hr
      | Woman cs f sp fa mo =>
        simp only [hd] at hr ⊢
        cases hv : v.visitWoman h p s with
        | error e => simpa [hv] using hr
        | ok s1 =>
          simp only [hv] at hr ⊢
          exact acceptChildren_mono _ _ (ih) cs s1 r hr

theorem accept_mono {σ : Type} (v : PersonVisitor σ) (h : Heap) (n m : Nat) (hnm : n ≤ m)
    (p : Ptr) (s : σ) (r : Except Fault σ) (hr : accept v h n p s = some r) :
    accept v h m p s = some r := by
  induction hnm with
  | refl => exact hr
  | step _ ih => exact accept_succ v h _ p s r ih

/-! ## The record of visited persons -/

theorem deref_some_ok (h : Heap) (a : Nat) (pp : Person) :
    deref h (some a) = .ok pp ↔ h[a]? = some pp := by
  cases hg : h[a]? <;> simp [deref, hg]

theorem childrenOf_woman (h : Heap) (a : Nat) (cs : List Ptr) (f : String) (sp fa mo : Ptr)
    (ha : h[a]? = some (.Woman cs f sp fa mo)) : childrenOf h a = cs := by
  simp [childrenOf, ha]

theorem acceptChildren_cons {σ : Type} (f : Ptr → σ → Option (Except Fault σ)) (c : Ptr)
    (cs : List Ptr) (s : σ) :
    acceptChildren f (c :: cs) s =
      match f c s with
      | some (.ok s1) => acceptChildren f cs s1
      | some (.error e) => some (.error e)
      | none => none := rfl

theorem accept_succ_eq {σ : Type} (v : PersonVisitor σ) (h : Heap) (n : Nat) (p : Ptr)
    (s : σ) :
    accept v h (n + 1) p s =
      match deref h p with
      | .error e => some (.error e)
      | .ok (.Man _ _ _ _ _) => some (v.visitMan h p s)
      | .ok (.Woman children _ _ _ _) =>
        match v.visitWoman h p s with
        | .error e => some (.error e)
        | .ok s1 => acceptChildren (accept v h n) children s1 := rfl

theorem recorder_visitMan (h : Heap) (a : Nat) (log : List Nat) :
    Recorder.visitMan h (some a) log = .ok (log ++ [a]) := rfl

theorem recorder_visitWoman (h : Heap) (a : Nat) (log : List Nat) :
    Recorder.visitWoman h (some a) log = .ok (log ++ [a]) := rfl

/-- The record a visit extends is a prefix of the outcome: running the loop from the
    record `log` is running it from the empty record and putting `log` in front. -/
theorem acceptChildren_log (f : Ptr → List Nat → Option (Except Fault (List Nat)))
    (hf : ∀ c log, f c log = (f c []).map (Except.map (log ++ ·))) :
    ∀ (cs : List Ptr) (log : List Nat),
      acceptChildren f cs log = (acceptChildren f cs []).map (Except.map (log ++ ·)) := by
  intro cs
  induction cs with
  | nil => intro log; simp [acceptChildren, Except.map]
  | cons c cs ih =>
    intro log
    rw [acceptChildren_cons, acceptChildren_cons, hf c log]
    cases hc : f c [] with
    | none => simp
    | some r =>
      cases r with
      | error e => simp [Except.map]
      | ok t1 =>
        simp only [Option.map_some', Except.map]
        rw [ih (log ++ t1), ih t1]
        cases acceptChildren f cs [] with
        | none => simp
        | some r2 =>
          cases r2 with
          | error e => simp [Except.map]
          | ok t2 => simp [Except.map, List.append_assoc]

theorem accept_recorder_log (h : Heap) :
    ∀ (n : Nat) (p : Ptr) (log : List Nat),
      accept Recorder h n p log = (accept Recorder h n p []).map (Except.map (log ++ ·)) := by
  intro n
  induction n with
  | zero => intro p log; simp [accept]
  | succ n ih =>
    intro p log
    rw [accept_succ_eq, accept_succ_eq]
    cases hd : deref h p with
    | error e => simp [Except.map]
    | ok pp =>
      cases p with
      | none => simp [deref] at hd
      | some a =>
        cases pp with
        | Man l f sp fa mo => simp [recorder_visitMan, Except.map]
        | Woman cs f sp fa mo =>
          simp only [recorder_visitWoman, List.nil_append]
          rw [acceptChildren_log _ ih cs (log ++ [a]), acceptChildren_log _ ih cs [a]]
          cases acceptChildren (accept Recorder h n) cs [] with
          | none => simp
          | some r2 =>
            cases r2 with
            | error e => simp [Except.map]
            | ok t2 => simp [Except.map, List.append_assoc]

/-- The loop over a children list succeeds exactly when every entry has a record of its
    own, and its outcome is the earlier record followed by these records in list order. -/
theorem acceptChildren_ok_iff (f : Ptr → List Nat → Option (Except Fault (List Nat)))
    (hf : ∀ c log, f c log = (f c []).map (Except.map (log ++ ·))) :
    ∀ (cs : List Ptr) (log t : List Nat),
      acceptChildren f cs log = some (.ok t) ↔
        ∃ ts, List.Forall₂ (fun c tc => f c [] = some (.ok tc)) cs ts ∧
          t = log ++ ts.flatten := by
  intro cs
  induction cs with
  | nil =>
    intro log t
    simp only [acceptChildren, Option.some.injEq, Except.ok.injEq]
    constructor
    · rintro rfl
      exact ⟨[], .nil, by simp⟩
    · rintro ⟨ts, hts, rfl⟩
      cases hts
      simp
  | cons c cs ih =>
    intro log t
    rw [acceptChildren_cons, hf c log]
    cases hc : f c [] with
    | none =>
      constructor
      · intro hx
        simp at hx
      · rintro ⟨ts, hts, -⟩
        cases hts with
        | cons h1 _ => rw [hc] at h1; cases h1
    | some r =>
      cases r with
      | error e =>
        constructor
        · intro hx
          simp [Except.map] at hx
        · rintro ⟨ts, hts, -⟩
          cases hts with
          | cons h1 _ => rw [hc] at h1; cases h1
      | ok t1 =>
        simp only [Option.map_some', Except.map]
        rw [ih (log ++ t1) t]
        constructor
        · rintro ⟨ts, hts, rfl⟩
          exact ⟨t1 :: ts, .cons hc hts, by simp [List.append_assoc]⟩
        · rintro ⟨ts, hts, rfl⟩
          cases hts with
          | cons h1 h2 =>
            rw [hc] at h1
            cases h1
            exact ⟨_, h2, by simp [List.append_assoc]⟩

/-- The record of the traversal of a woman: herself, then the records of her children in
    list order. -/
theorem accept_recorder_woman (h : Heap) (n : Nat) (a : Nat) (cs : List Ptr) (f : String)
    (sp fa mo : Ptr) (ha : h[a]? = some (.Woman cs f sp fa mo)) (t : List Nat) :
    accept Recorder h (n + 1) (some a) [] = some (.ok t) ↔
      ∃ ts, List.Forall₂ (fun c tc => accept Recorder h n c [] = some (.ok tc)) cs ts ∧
        t = a :: ts.flatten := by
  have hd : deref h (some a) = .ok (.Woman cs f sp fa mo) := (deref_some_ok h a _).2 ha
  rw [accept_succ_eq]
  simp only [hd, recorder_visitWoman, List.nil_append]
  rw [acceptChildren_ok_iff _ (accept_recorder_log h n) cs [a] t]
  simp

theorem accept_recorder_man (h : Heap) (n : Nat) (a : Nat) (l f : String)
    (sp fa mo : Ptr) (ha : h[a]? = some (.Man l f sp fa mo)) :
    accept Recorder h (n + 1) (some a) [] = some (.ok [a]) := by
  have hd : deref h (some a) = .ok (.Man l f sp fa mo) := (deref_some_ok h a _).2 ha
  simp [accept, hd, Recorder]

/-- A record starts with the person the traversal started at, and that person is an
    object of the heap. -/
theorem accept_recorder_head (h : Heap) (n : Nat) (p : Ptr) (t : List Nat)
    (ht : accept Recorder h n p [] = some (.ok t)) :
    ∃ a rest, p = some a ∧ a < h.length ∧ t = a :: rest := by
  cases n with
  | zero => simp [accept] at ht
  | succ n =>
    cases p with
    | none => simp [accept, deref] at ht
    | some a =>
      cases hg : h[a]? with
      | none => simp [accept, deref, hg] at ht
      | some pp =>
        have hlt : a < h.length := by
          by_contra hge
          rw [List.getElem?_eq_none (by omega)] at hg
          cases hg
        cases pp with
        | Man l f sp fa mo =>
          rw [accept_recorder_man h n a l f sp fa mo hg] at ht
          exact ⟨a, [], rfl, hlt, by simpa using ht.symm⟩
        | Woman cs f sp fa mo =>
          obtain ⟨ts, -, rfl⟩ := (accept_recorder_woman h n a cs f sp fa mo hg t).1 ht
          exact ⟨a, ts.flatten, rfl, hlt, rfl⟩

/-! ## The record does not depend on the visitor -/

theorem acceptChildren_logged {σ : Type} (f : Ptr → σ → Option (Except Fault σ))
    (g : Ptr → List Nat → Option (Except Fault (List Nat)))
    (k : Ptr → σ × List Nat → Option (Except Fault (σ × List Nat)))
    (hfgk : ∀ c s log s1, f c s = some (.ok s1) →
      ∃ t, g c log = some (.ok t) ∧ k c (s, log) = some (.ok (s1, t))) :
    ∀ (cs : List Ptr) (s : σ) (log : List Nat) (s1 : σ),
      acceptChildren f cs s = some (.ok s1) →
      ∃ t, acceptChildren g cs log = some (.ok t) ∧
        acceptChildren k cs (s, log) = some (.ok (s1, t)) := by
  intro cs
  induction cs with
  | nil =>
    intro s log s1 hs
    simp only [acceptChildren, Option.some.injEq, Except.ok.injEq] at hs
    subst hs
    exact ⟨log, rfl, rfl⟩
  | cons c cs ih =>
    intro s log s1 hs
    rw [acceptChildren_cons] at hs
    cases hf : f c s with
    | none => simp [hf] at hs
    | some r =>
      cases r with
      | error e => simp [hf] at hs
      | ok s2 =>
        simp only [hf] at hs
        obtain ⟨t2, hg, hk⟩ := hfgk c s log s2 hf
        obtain ⟨t, hg2, hk2⟩ := ih s2 t2 s1 hs
        refine ⟨t, ?_, ?_⟩
        · rw [acceptChildren_cons, hg]
          exact hg2
        · rw [acceptChildren_cons, hk]
          exact hk2

/-- Whenever a traversal with a visitor `v` completes, the recording visitor completes
    at the same depth, and `v` was invoked on the persons of its record, in that order. -/
theorem accept_logged {σ : Type} (v : PersonVisitor σ) (h : Heap) :
    ∀ (n : Nat) (p : Ptr) (s : σ) (log : List Nat) (s1 : σ),
      accept v h n p s = some (.ok s1) →
      ∃ t, accept Recorder h n p log = some (.ok t) ∧
        accept (Logged v) h n p (s, log) = some (.ok (s1, t)) := by
  intro n
  induction n with
  | zero => intro p s log s1 hs; simp [accept] at hs
  | succ n ih =>
    intro p s log s1 hs
    rw [accept_succ_eq] at hs
    rw [accept_succ_eq, accept_succ_eq]
    cases hd : deref h p with
    | error e => simp [hd] at hs
    | ok pp =>
      cases p with
      | none => simp [deref] at hd
      | some a =>
        cases pp with
        | Man l f sp fa mo =>
          simp only [hd, Option.some.injEq] at hs
          refine ⟨log ++ [a], rfl, ?_⟩
          simp [Logged, hs]
        | Woman cs f sp fa mo =>
          simp only [hd] at hs ⊢
          cases hv : v.visitWoman h (some a) s with
          | error e => simp [hv] at hs
          | ok s2 =>
            simp only [hv] at hs
            obtain ⟨t, ht, hk⟩ := acceptChildren_logged _ (accept Recorder h n)
              (accept (Logged v) h n) (ih) cs s2 (log ++ [a]) s1 hs
            refine ⟨t, ?_, ?_⟩
            · simpa [recorder_visitWoman] using ht
            · have hl : (Logged v).visitWoman h (some a) (s, log) = .ok (s2, log ++ [a]) := by
                simp [Logged, hv]
              simp only [hl]
              exact hk

/-! ## The traversal of a `Man` -/

/-- C2: for every visitor and every `Man` object, whatever his spouse link is, `accept`
    is one call of the visitor's `visit(Man *)` on that object and nothing else: its
    outcome is the outcome of that call, the record of visited persons holds the man
    alone, and the visitor instrumented with the record of its invocations was invoked
    on him once and on nobody else. -/
theorem accept_man_visits_only_him {σ : Type} (v : PersonVisitor σ) (h : Heap) (n : Nat)
    (a : Nat) (s : σ) (last first : String) (sp fa mo : Ptr)
    (hm : deref h (some a) = .ok (.Man last first sp fa mo)) :
    accept v h (n + 1) (some a) s = some (v.visitMan h (some a) s) ∧
    accept Recorder h (n + 1) (some a) [] = some (.ok [a]) ∧
    ∀ s1, v.visitMan h (some a) s = .ok s1 →
      accept (Logged v) h (n + 1) (some a) (s, []) = some (.ok (s1, [a])) := by
  refine ⟨?_, ?_, ?_⟩
  · simp [accept, hm]
  · simp [accept, hm, Recorder]
  · intro s1 hs1
    simp [accept, hm, Logged, hs1]

theorem accept_man_visits_only_him_witness :
    accept NamePrinter exampleHeap 1 (some 6) "" =
        some (NamePrinter.visitMan exampleHeap (some 6) "") ∧
      accept Recorder exampleHeap 1 (some 6) [] = some (.ok [6]) ∧
      ∀ s1, NamePrinter.visitMan exampleHeap (some 6) "" = .ok s1 →
        accept (Logged NamePrinter) exampleHeap 1 (some 6) ("", []) = some (.ok (s1, [6])) :=
  accept_man_visits_only_him NamePrinter exampleHeap 0 6 "" "Johnson" "Michael" (some 8)
    (some 3) (some 2) rfl

/-! ## The example run of `main` -/

theorem mainTree_eq :
    mainTree = .ok ⟨exampleHeap, some 0, some 1, some 2, some 3, some 6, some 8⟩ := rfl

theorem mainAccept_mono {σ : Type} (v : PersonVisitor σ) (n m : Nat) (hnm : n ≤ m) (s : σ)
    (r : Except Fault σ) (hr : mainAccept v n s = some r) : mainAccept v m s = some r := by
  unfold mainAccept at hr ⊢
  rw [mainTree_eq] at hr ⊢
  exact accept_mono v _ n m hnm _ s r hr

theorem mainAccept_namePrinter_three :
    mainAccept NamePrinter 3 "" =
      some (.ok ("Mary Smith\nPatricia Johnson\nMichael Johnson\n" ++
        "Barbara Johnson\nRobert Smith\nLinda Smith\n")) := rfl

/-- C3 (amended): on the tree built in `main`, the traversal rooted at Mary with
    `NamePrinter` finishes within recursion depth 3 and writes six lines, in this order:
    Mary Smith, Patricia Johnson, Michael Johnson, Barbara Johnson, Robert Smith,
    Linda Smith.  Susan is in the children list of Jennifer, who is in no children list
    herself, so no line is written for her. -/
theorem main_nameList_six_lines (n : Nat) :
    mainAccept NamePrinter (n + 3) "" =
      some (.ok ("Mary Smith\nPatricia Johnson\nMichael Johnson\n" ++
        "Barbara Johnson\nRobert Smith\nLinda Smith\n")) :=
  mainAccept_mono NamePrinter 3 (n + 3) (by omega) _ _ mainAccept_namePrinter_three

/-- C3 fails as stated: at no recursion depth does the traversal of the tree of `main`
    with `NamePrinter` write the seven lines that include Susan Johnson. -/
theorem seven_lines_never_written :
    ¬ ∃ n : Nat, mainAccept NamePrinter n "" =
      some (.ok ("Mary Smith\nPatricia Johnson\nMichael Johnson\nSusan Johnson\n" ++
        "Barbara Johnson\nRobert Smith\nLinda Smith\n")) := by
  rintro ⟨n, hn⟩
  have h6 := mainAccept_mono NamePrinter 3 (n + 3) (by omega) _ _ mainAccept_namePrinter_three
  have h7 := mainAccept_mono NamePrinter n (n + 3) (by omega) _ _ hn
  rw [h6] at h7
  exact absurd (Except.ok.inj (Option.some.inj h7)) (by decide)

/-! ## Display names: `NamePrinter` -/

/-- C5: when `NamePrinter` visits a `Woman` whose spouse is a `Man`, it writes her first
    name, a space, the spouse's family name and the line end; her father link `fa` is
    arbitrary and does not occur in the result, and any other woman of the same first name
    whose spouse has the same family name gives the same line, whatever her father is. -/
theorem namePrinter_woman_with_spouse (h : Heap) (w : Ptr) (out : String)
    (cs : List Ptr) (first : String) (sp fa mo : Ptr)
    (slast sfirst : String) (ssp sfa smo : Ptr)
    (hw : deref h w = .ok (.Woman cs first sp fa mo))
    (hs : deref h sp = .ok (.Man slast sfirst ssp sfa smo)) :
    NamePrinter.visitWoman h w out = .ok (out ++ (first ++ " " ++ slast) ++ "\n") ∧
    ∀ (h2 : Heap) (w2 : Ptr) (cs2 : List Ptr) (sp2 fa2 mo2 : Ptr)
      (sfirst2 : String) (ssp2 sfa2 smo2 : Ptr),
      deref h2 w2 = .ok (.Woman cs2 first sp2 fa2 mo2) →
      deref h2 sp2 = .ok (.Man slast sfirst2 ssp2 sfa2 smo2) →
      NamePrinter.visitWoman h2 w2 out = NamePrinter.visitWoman h w out := by
  have key : ∀ (h2 : Heap) (w2 : Ptr) (cs2 : List Ptr) (sp2 fa2 mo2 : Ptr)
      (sfirst2 : String) (ssp2 sfa2 smo2 : Ptr),
      deref h2 w2 = .ok (.Woman cs2 first sp2 fa2 mo2) →
      deref h2 sp2 = .ok (.Man slast sfirst2 ssp2 sfa2 smo2) →
      NamePrinter.visitWoman h2 w2 out = .ok (out ++ (first ++ " " ++ slast) ++ "\n") := by
    intro h2 w2 cs2 sp2 fa2 mo2 sfirst2 ssp2 sfa2 smo2 hw2 hs2
    have hne : sp2 ≠ none := by
      rintro rfl
      simp [deref] at hs2
    simp [NamePrinter, derefWoman, derefMan, hw2, hs2, hne, Person.getFirstName,
      Person.getSpouse, Person.getLastName, String.append_assoc]
  refine ⟨key h w cs sp fa mo sfirst ssp sfa smo hw hs, ?_⟩
  intro h2 w2 cs2 sp2 fa2 mo2 sfirst2 ssp2 sfa2 smo2 hw2 hs2
  rw [key h2 w2 cs2 sp2 fa2 mo2 sfirst2 ssp2 sfa2 smo2 hw2 hs2,
    key h w cs sp fa mo sfirst ssp sfa smo hw hs]

theorem namePrinter_woman_with_spouse_witness :
    NamePrinter.visitWoman exampleHeap (some 2) "" = .ok ("" ++ ("Patricia" ++ " " ++ "Johnson") ++ "\n") :=
  (namePrinter_woman_with_spouse exampleHeap (some 2) "" [some 6, some 7] "Patricia"
    (some 3) (some 0) (some 1) "Johnson" "William" (some 2) none none rfl rfl).1

/-- C6: when `NamePrinter` visits a `Woman` with no spouse, it writes her first name, a
    space and then her father's family name when her father is known (a `Man`), and the
    placeholder `Doe` when she has no father either. -/
theorem namePrinter_woman_without_spouse (h : Heap) (w : Ptr) (out : String)
    (cs : List Ptr) (first : String) (fa mo : Ptr)
    (hw : deref h w = .ok (.Woman cs first none fa mo)) :
    (∀ (flast ffirst : String) (fsp ffa fmo : Ptr),
      deref h fa = .ok (.Man flast ffirst fsp ffa fmo) →
      NamePrinter.visitWoman h w out = .ok (out ++ (first ++ " " ++ flast) ++ "\n")) ∧
    (fa = none →
      NamePrinter.visitWoman h w out = .ok (out ++ (first ++ " " ++ "Doe") ++ "\n")) := by
  constructor
  · intro flast ffirst fsp ffa fmo hf
    have hne : fa ≠ none := by
      rintro rfl
      simp [deref] at hf
    simp [NamePrinter, derefWoman, derefMan, hw, hf, hne, Person.getFirstName,
      Person.getSpouse, Person.getFather, Person.getLastName, String.append_assoc]
  · rintro rfl
    simp [NamePrinter, derefWoman, hw, Person.getFirstName,
      Person.getSpouse, Person.getFather, String.append_assoc]

theorem namePrinter_woman_without_spouse_witness :
    NamePrinter.visitWoman exampleHeap (some 5) "" =
        .ok ("" ++ ("Linda" ++ " " ++ "Smith") ++ "\n") ∧
      NamePrinter.visitWoman [.Woman [] "Mary" none none none] (some 0) "" =
        .ok ("" ++ ("Mary" ++ " " ++ "Doe") ++ "\n") :=
  ⟨(namePrinter_woman_without_spouse exampleHeap (some 5) "" [] "Linda" (some 0) (some 1)
      rfl).1 "Smith" "James" (some 1) none none rfl,
   (namePrinter_woman_without_spouse [.Woman [] "Mary" none none none] (some 0) "" []
      "Mary" none none rfl).2 rfl⟩

/-! ## Maiden names: `MaidenNamePrinter` -/

/-- What `MaidenNamePrinter::visit(Woman *)` writes in general: with a known father (a
    `Man`) the first name, a space, the father's family name and the line end; with no
    father the first name, a space, `Doe`, a second space and the line end. -/
theorem maidenNamePrinter_visitWoman (h : Heap) (w : Ptr) (out : String)
    (cs : List Ptr) (first : String) (sp fa mo : Ptr)
    (hw : deref h w = .ok (.Woman cs first sp fa mo)) :
    (∀ (flast ffirst : String) (fsp ffa fmo : Ptr),
      deref h fa = .ok (.Man flast ffirst fsp ffa fmo) →
      MaidenNamePrinter.visitWoman h w out = .ok (out ++ (first ++ " " ++ flast) ++ "\n")) ∧
    (fa = none →
      MaidenNamePrinter.visitWoman h w out = .ok (out ++ (first ++ " " ++ "Doe ") ++ "\n")) := by
  constructor
  · intro flast ffirst fsp ffa fmo hf
    have hne : fa ≠ none := by
      rintro rfl
      simp [deref] at hf
    simp [MaidenNamePrinter.visitWoman, derefWoman, derefMan, hw, hf, hne,
      Person.getFirstName, Person.getFather, Person.getLastName, String.append_assoc]
  · rintro rfl
    simp [MaidenNamePrinter.visitWoman, derefWoman, hw, Person.getFirstName,
      Person.getFather, String.append_assoc]

/-- C7: on the example tree `MaidenNamePrinter` writes the line `Patricia Smith` for
    Patricia, and for Jennifer, who has no father, the line `Jennifer Doe ` with a space
    after the placeholder, which is not the line `Jennifer Doe`. -/
theorem maidenNamePrinter_example_lines :
    MaidenNamePrinter.visitWoman exampleHeap (some 2) "" = .ok "Patricia Smith\n" ∧
    MaidenNamePrinter.visitWoman exampleHeap (some 8) "" = .ok "Jennifer Doe \n" ∧
    MaidenNamePrinter.visitWoman exampleHeap (some 8) "" ≠ .ok "Jennifer Doe\n" := by
  refine ⟨rfl, rfl, ?_⟩
  have h8 : MaidenNamePrinter.visitWoman exampleHeap (some 8) "" = .ok "Jennifer Doe \n" := rfl
  rw [h8]
  exact fun hc => absurd (Except.ok.inj hc) (by decide)

/-- C8: when `MaidenNamePrinter` visits a `Man` with no spouse it writes nothing; when
    he has a spouse the outcome is that of `MaidenNamePrinter::visit(Woman *)` on the
    spouse pointer; and every other man with the same spouse link gives the same outcome,
    whatever his own first and family names are. -/
theorem maidenNamePrinter_man_delegates (h : Heap) (m : Ptr) (out : String)
    (last first : String) (sp fa mo : Ptr)
    (hm : deref h m = .ok (.Man last first sp fa mo)) :
    (sp = none → MaidenNamePrinter.visitMan h m out = .ok out) ∧
    (sp ≠ none →
      MaidenNamePrinter.visitMan h m out = MaidenNamePrinter.visitWoman h sp out) ∧
    (∀ (m2 : Ptr) (last2 first2 : String) (fa2 mo2 : Ptr),
      deref h m2 = .ok (.Man last2 first2 sp fa2 mo2) →
      MaidenNamePrinter.visitMan h m2 out = MaidenNamePrinter.visitMan h m out) := by
  refine ⟨?_, ?_, ?_⟩
  · rintro rfl
    simp [MaidenNamePrinter, MaidenNamePrinter.visitMan, derefMan, hm, Person.getSpouse]
  · intro hne
    simp [MaidenNamePrinter, MaidenNamePrinter.visitMan, derefMan, hm, Person.getSpouse, hne]
  · intro m2 last2 first2 fa2 mo2 hm2
    simp [MaidenNamePrinter, MaidenNamePrinter.visitMan, derefMan, hm, hm2, Person.getSpouse]

theorem maidenNamePrinter_man_delegates_witness :
    MaidenNamePrinter.visitMan exampleHeap (some 4) "" = .ok "" ∧
    MaidenNamePrinter.visitMan exampleHeap (some 6) "" = .ok "Jennifer Doe \n" :=
  ⟨(maidenNamePrinter_man_delegates exampleHeap (some 4) "" "Smith" "Robert" none (some 0)
      (some 1) rfl).1 rfl,
   ((maidenNamePrinter_man_delegates exampleHeap (some 6) "" "Johnson" "Michael" (some 8)
      (some 3) (some 2) rfl).2.1 (by decide)).trans rfl⟩

/-! ## Children lists: `ChildrenPrinter` -/

theorem printNames_eq (h : Heap) (cs : List Ptr) (names : List String)
    (hn : FirstNames h cs names) (out : String) :
    ChildrenPrinter.printNames h cs out = .ok (out ++ nameListing names) := by
  unfold FirstNames at hn
  induction hn generalizing out with
  | nil => simp [ChildrenPrinter.printNames, nameListing]
  | cons hc _ ih =>
    obtain ⟨pc, hpc, rfl⟩ := hc
    simp [ChildrenPrinter.printNames, hpc, ih, nameListing, String.append_assoc]

/-- C9: `ChildrenPrinter` writes, for a `Woman`, her first name, a colon and a space, then
    the first name of each of her children followed by a comma and a space, in list order,
    and the line end; for a `Man` with a spouse, his own first name, a colon and a space
    and the same listing of his spouse's children; for a `Man` with no spouse, his first
    name, a colon and a space and nothing more.  On the example tree the line of Mary is
    `Mary: Patricia, Robert, Linda, ` and the line of James is the same after `James`. -/
theorem childrenPrinter_lines (h : Heap) (out : String) (cs : List Ptr)
    (names : List String) (hn : FirstNames h cs names) :
    (∀ (w : Ptr) (first : String) (sp fa mo : Ptr),
      deref h w = .ok (.Woman cs first sp fa mo) →
      ChildrenPrinter.visitWoman h w out =
        .ok (out ++ (first ++ ": " ++ nameListing names) ++ "\n")) ∧
    (∀ (m : Ptr) (last first : String) (sp fa mo : Ptr) (wfirst : String) (wsp wfa wmo : Ptr),
      deref h m = .ok (.Man last first sp fa mo) →
      deref h sp = .ok (.Woman cs wfirst wsp wfa wmo) →
      ChildrenPrinter.visitMan h m out =
        .ok (out ++ (first ++ ": " ++ nameListing names) ++ "\n")) ∧
    (∀ (m : Ptr) (last first : String) (fa mo : Ptr),
      deref h m = .ok (.Man last first none fa mo) →
      ChildrenPrinter.visitMan h m out = .ok (out ++ (first ++ ": ") ++ "\n")) ∧
    ChildrenPrinter.visitWoman exampleHeap (some 1) "" =
      .ok "Mary: Patricia, Robert, Linda, \n" ∧
    ChildrenPrinter.visitMan exampleHeap (some 0) "" =
      .ok "James: Patricia, Robert, Linda, \n" := by
  refine ⟨?_, ?_, ?_, rfl, rfl⟩
  · intro w first sp fa mo hw
    simp [ChildrenPrinter, derefWoman, hw, Person.getFirstName, Person.getChildren,
      printNames_eq h cs names hn, String.append_assoc]
  · intro m last first sp fa mo wfirst wsp wfa wmo hm hs
    have hne : sp ≠ none := by
      rintro rfl
      simp [deref] at hs
    simp [ChildrenPrinter, derefMan, derefWoman, hm, hs, hne, Person.getFirstName,
      Person.getSpouse, Person.getChildren, printNames_eq h cs names hn,
      String.append_assoc]
  · intro m last first fa mo hm
    simp [ChildrenPrinter, derefMan, hm, Person.getFirstName, Person.getSpouse,
      String.append_assoc]

theorem exampleHeap_marysKids :
    FirstNames exampleHeap [some 2, some 4, some 5] ["Patricia", "Robert", "Linda"] :=
  .cons ⟨_, rfl, rfl⟩ (.cons ⟨_, rfl, rfl⟩ (.cons ⟨_, rfl, rfl⟩ .nil))

theorem childrenPrinter_lines_witness :
    ChildrenPrinter.visitWoman exampleHeap (some 1) "" =
        .ok ("" ++ ("Mary" ++ ": " ++ nameListing ["Patricia", "Robert", "Linda"]) ++ "\n") ∧
      ChildrenPrinter.visitMan exampleHeap (some 0) "" =
        .ok ("" ++ ("James" ++ ": " ++ nameListing ["Patricia", "Robert", "Linda"]) ++ "\n") ∧
      ChildrenPrinter.visitMan exampleHeap (some 4) "" = .ok ("" ++ ("Robert" ++ ": ") ++ "\n") :=
  ⟨(childrenPrinter_lines exampleHeap "" _ _ exampleHeap_marysKids).1 (some 1) "Mary"
      (some 0) none none rfl,
   (childrenPrinter_lines exampleHeap "" _ _ exampleHeap_marysKids).2.1 (some 0) "Smith"
      "James" (some 1) none none "Mary" (some 0) none none rfl rfl,
   (childrenPrinter_lines exampleHeap "" _ _ exampleHeap_marysKids).2.2.1 (some 4) "Smith"
      "Robert" (some 0) (some 1) rfl⟩

/-! ## `NameHolder` and the unknown father -/

theorem recordParents_no_father (h : Heap) (nh : NameHolder) :
    NameHolder.recordParents h none nh = .error .nullDeref := by
  simp [NameHolder.recordParents, derefMan, deref]

/-- C10 (amended): for every person with no spouse whose father is unknown,
    `NameHolder::visit` reaches the test of the father's spouse, dereferences the absent
    father there, and faults with a null dereference instead of returning a record; so
    does `accept` with a `NameHolder` on that person. -/
theorem nameHolder_unmarried_fatherless_faults (h : Heap) (p : Ptr) (pp : Person)
    (nh : NameHolder) (hp : deref h p = .ok pp) (hs : pp.getSpouse = none)
    (hf : pp.getFather = none) :
    (match pp with
      | .Man _ _ _ _ _ => NameHolder.visitMan h p nh
      | .Woman _ _ _ _ _ => NameHolder.visitWoman h p nh) = .error .nullDeref ∧
    ∀ n, accept NameHolderVisitor h (n + 1) p nh = some (.error .nullDeref) := by
  cases pp with
  | Man last first sp fa mo =>
    simp only [Person.getSpouse, Person.getFather] at hs hf
    subst hs hf
    have hv : NameHolder.visitMan h p nh = .error .nullDeref := by
      simp [NameHolder.visitMan, derefMan, hp, Person.getLastName, Person.getSpouse,
        Person.getFather, recordParents_no_father]
    refine ⟨hv, fun n => ?_⟩
    rw [accept_succ_eq]
    simp only [hp, NameHolderVisitor, hv]
  | Woman cs first sp fa mo =>
    simp only [Person.getSpouse, Person.getFather] at hs hf
    subst hs hf
    have hv : NameHolder.visitWoman h p nh = .error .nullDeref := by
      simp [NameHolder.visitWoman, derefWoman, hp, Person.getSpouse,
        Person.getFather, recordParents_no_father]
    refine ⟨hv, fun n => ?_⟩
    rw [accept_succ_eq]
    simp only [hp, NameHolderVisitor, hv]

theorem nameHolder_unmarried_fatherless_faults_witness :
    NameHolder.visitMan [.Man "Smith" "James" none none none] (some 0) NameHolder.new =
        .error .nullDeref ∧
      NameHolder.visitWoman [.Woman [] "Mary" none none none] (some 0) NameHolder.new =
        .error .nullDeref :=
  ⟨(nameHolder_unmarried_fatherless_faults [.Man "Smith" "James" none none none] (some 0)
      (.Man "Smith" "James" none none none) NameHolder.new rfl rfl rfl).1,
   (nameHolder_unmarried_fatherless_faults [.Woman [] "Mary" none none none] (some 0)
      (.Woman [] "Mary" none none none) NameHolder.new rfl rfl rfl).1⟩

/-- C10 fails as stated: James and Mary of the example tree have no father, and the visit
    of a `NameHolder` returns a record for each, because both are married and the visit
    returns before it looks at the father. -/
theorem nameHolder_married_fatherless_returns :
    (exampleHeap[0]?.map Person.getFather = some none ∧
      NameHolder.visitMan exampleHeap (some 0) NameHolder.new =
        .ok { name_ := "James Smith", married_ := true, parentsNames_ := [],
              siblingsNames_ := [] }) ∧
    (exampleHeap[1]?.map Person.getFather = some none ∧
      NameHolder.visitWoman exampleHeap (some 1) NameHolder.new =
        .ok { name_ := "Mary Smith", married_ := true, parentsNames_ := [],
              siblingsNames_ := [] }) :=
  ⟨⟨rfl, rfl⟩, ⟨rfl, rfl⟩⟩

theorem forall₂_mem_left {α β : Type} {R : α → β → Prop} {l1 : List α} {l2 : List β}
    (hR : List.Forall₂ R l1 l2) : ∀ a ∈ l1, ∃ b ∈ l2, R a b := by
  induction hR with
  | nil => intro a ha; cases ha
  | cons hab _ ih =>
    intro a ha
    rcases List.mem_cons.1 ha with rfl | ha
    · exact ⟨_, List.mem_cons_self _ _, hab⟩
    · obtain ⟨b, hb, hr⟩ := ih a ha
      exact ⟨b, List.mem_cons_of_mem _ hb, hr⟩

theorem forall₂_mem_right {α β : Type} {R : α → β → Prop} {l1 : List α} {l2 : List β}
    (hR : List.Forall₂ R l1 l2) : ∀ b ∈ l2, ∃ a ∈ l1, R a b := by
  induction hR with
  | nil => intro b hb; cases hb
  | cons hab _ ih =>
    intro b hb
    rcases List.mem_cons.1 hb with rfl | hb
    · exact ⟨_, List.mem_cons_self _ _, hab⟩
    · obtain ⟨a, ha, hr⟩ := ih b hb
      exact ⟨a, List.mem_cons_of_mem _ ha, hr⟩

theorem forall₂_pairwise {α β : Type} {R : α → β → Prop} {S : α → α → Prop}
    {T : β → β → Prop} {l1 : List α} {l2 : List β} (hR : List.Forall₂ R l1 l2)
    (hS : l1.Pairwise S)
    (hT : ∀ a1 ∈ l1, ∀ a2 ∈ l1, ∀ b1 b2, S a1 a2 → R a1 b1 → R a2 b2 → T b1 b2) :
    l2.Pairwise T := by
  induction hR with
  | nil => exact List.Pairwise.nil
  | cons hab hrest ih =>
    rename_i a b l1 l2
    rw [List.pairwise_cons] at hS ⊢
    refine ⟨?_, ih hS.2 ?_⟩
    · intro b2 hb2
      obtain ⟨a2, ha2, hr2⟩ := forall₂_mem_right hrest b2 hb2
      exact hT a (List.mem_cons_self _ _) a2 (List.mem_cons_of_mem _ ha2) b b2
        (hS.1 a2 ha2) hab hr2
    · intro a1 h1 a2 h2
      exact hT a1 (List.mem_cons_of_mem _ h1) a2 (List.mem_cons_of_mem _ h2)

theorem childOf_lt_length (h : Heap) (c w : Nat) (hc : ChildOf h c w) : w < h.length := by
  by_contra hge
  unfold ChildOf childrenOf at hc
  rw [List.getElem?_eq_none (by omega)] at hc
  simp at hc

theorem reach_man (h : Heap) (a : Nat) (l f : String) (sp fa mo : Ptr)
    (ha : h[a]? = some (.Man l f sp fa mo)) (x : Nat) (hx : Reach h x a) : x = a := by
  rcases Relation.ReflTransGen.cases_tail hx with rfl | ⟨c, -, hc⟩
  · rfl
  · unfold ChildOf childrenOf at hc
    simp [ha] at hc

/-- The persons in the record of a traversal are the person it started at and the
    persons reached from her through children lists. -/
theorem accept_recorder_mem (h : Heap) :
    ∀ (n a : Nat) (t : List Nat), accept Recorder h n (some a) [] = some (.ok t) →
      ∀ x, x ∈ t ↔ Reach h x a := by
  intro n
  induction n with
  | zero => intro a t ht; simp [accept] at ht
  | succ n ih =>
    intro a t ht x
    cases hg : h[a]? with
    | none => simp [accept, deref, hg] at ht
    | some pp =>
      cases pp with
      | Man l f sp fa mo =>
        rw [accept_recorder_man h n a l f sp fa mo hg] at ht
        cases ht
        constructor
        · intro hx
          rw [List.mem_singleton.1 hx]
          exact Relation.ReflTransGen.refl
        · intro hx
          rw [reach_man h a l f sp fa mo hg x hx]
          exact List.mem_singleton_self _
      | Woman cs f sp fa mo =>
        obtain ⟨ts, hts, rfl⟩ := (accept_recorder_woman h n a cs f sp fa mo hg t).1 ht
        have hcs : childrenOf h a = cs := childrenOf_woman h a cs f sp fa mo hg
        constructor
        · intro hx
          rcases List.mem_cons.1 hx with rfl | hx
          · exact Relation.ReflTransGen.refl
          · obtain ⟨tc, htc, hxtc⟩ := List.mem_flatten.1 hx
            obtain ⟨c, hc, hrc⟩ := forall₂_mem_right hts tc htc
            obtain ⟨a1, rest, rfl, -, -⟩ := accept_recorder_head h n c tc hrc
            have hch : ChildOf h a1 a := by
              unfold ChildOf
              rw [hcs]
              exact hc
            exact Relation.ReflTransGen.tail ((ih a1 tc hrc x).1 hxtc) hch
        · intro hx
          rcases Relation.ReflTransGen.cases_tail hx with rfl | ⟨c, hxc, hc⟩
          · exact List.mem_cons_self _ _
          · have hc2 : some c ∈ cs := by
              unfold ChildOf at hc
              rw [hcs] at hc
              exact hc
            obtain ⟨tc, htc, hrc⟩ := forall₂_mem_left hts (some c) hc2
            exact List.mem_cons_of_mem _
              (List.mem_flatten.2 ⟨tc, htc, (ih c tc hrc x).2 hxc⟩)

/-- In a heap where each person is in at most one children list, two persons that have a
    common descendant through children lists are on one line of descent. -/
theorem reach_comparable (h : Heap)
    (hu : ∀ c w1 w2, ChildOf h c w1 → ChildOf h c w2 → w1 = w2) (x a b : Nat)
    (h1 : Reach h x a) : Reach h x b → Reach h a b ∨ Reach h b a := by
  unfold Reach at h1 ⊢
  induction h1 using Relation.ReflTransGen.head_induction_on with
  | refl => intro h2; exact Or.inl h2
  | head hxy hya ih =>
    intro h2
    rcases Relation.ReflTransGen.cases_head h2 with rfl | ⟨y2, hxy2, hy2b⟩
    · exact Or.inr (Relation.ReflTransGen.head hxy hya)
    · have := hu _ _ _ hxy hxy2
      subst this
      exact ih hy2b

/-- Two different children of one woman have no common descendant, in a heap where each
    person is in at most one children list and no woman is under herself. -/
theorem siblings_disjoint (h : Heap) (ho : OneList h) (hac : Acyclic h) (a a1 a2 : Nat)
    (h1 : ChildOf h a1 a) (h2 : ChildOf h a2 a) (hne : a1 ≠ a2) (x : Nat)
    (hx1 : Reach h x a1) (hx2 : Reach h x a2) : False := by
  have side : ∀ b1 b2, ChildOf h b1 a → ChildOf h b2 a → b1 ≠ b2 → Reach h b1 b2 → False := by
    intro b1 b2 hb1 hb2 hb hr
    rcases Relation.ReflTransGen.cases_head hr with rfl | ⟨y, hy, hyb⟩
    · exact hb rfl
    · have hya : y = a := ho.1 _ _ _ hy hb1
      subst hya
      exact hac y (Relation.TransGen.tail' hyb hb2)
  rcases reach_comparable h ho.1 x a1 a2 hx1 hx2 with hr | hr
  · exact side a1 a2 h1 h2 hne hr
  · exact side a2 a1 h2 h1 (Ne.symm hne) hr

/-- In a heap where each person is in at most one children list, at most once, and no
    woman is under herself, no person occurs twice in the record of a traversal. -/
theorem accept_recorder_nodup (h : Heap) (ho : OneList h) (hac : Acyclic h) :
    ∀ (n a : Nat) (t : List Nat), accept Recorder h n (some a) [] = some (.ok t) →
      t.Nodup := by
  intro n
  induction n with
  | zero => intro a t ht; simp [accept] at ht
  | succ n ih =>
    intro a t ht
    cases hg : h[a]? with
    | none => simp [accept, deref, hg] at ht
    | some pp =>
      cases pp with
      | Man l f sp fa mo =>
        rw [accept_recorder_man h n a l f sp fa mo hg] at ht
        cases ht
        exact List.nodup_singleton a
      | Woman cs f sp fa mo =>
        obtain ⟨ts, hts, rfl⟩ := (accept_recorder_woman h n a cs f sp fa mo hg t).1 ht
        have hcs : childrenOf h a = cs := childrenOf_woman h a cs f sp fa mo hg
        have hchild : ∀ c ∈ cs, ∀ tc, accept Recorder h n c [] = some (.ok tc) →
            ∃ a1, c = some a1 ∧ ChildOf h a1 a := by
          intro c hc tc hrc
          obtain ⟨a1, rest, rfl, -, -⟩ := accept_recorder_head h n c tc hrc
          refine ⟨a1, rfl, ?_⟩
          unfold ChildOf
          rw [hcs]
          exact hc
        rw [List.nodup_cons]
        constructor
        · intro hx
          obtain ⟨tc, htc, hxtc⟩ := List.mem_flatten.1 hx
          obtain ⟨c, hc, hrc⟩ := forall₂_mem_right hts tc htc
          obtain ⟨a1, rfl, hch⟩ := hchild c hc tc hrc
          exact hac a (Relation.TransGen.tail' ((accept_recorder_mem h n a1 tc hrc a).1 hxtc) hch)
        · rw [List.nodup_flatten]
          constructor
          · intro tc htc
            obtain ⟨c, hc, hrc⟩ := forall₂_mem_right hts tc htc
            obtain ⟨a1, rfl, -⟩ := hchild c hc tc hrc
            exact ih a1 tc hrc
          · have hnd : cs.Pairwise (· ≠ ·) := by
              have := ho.2 a
              rw [hcs] at this
              exact this
            refine forall₂_pairwise hts hnd ?_
            intro c1 hc1 c2 hc2 t1 t2 hne hr1 hr2 x hx1 hx2
            obtain ⟨a1, rfl, hch1⟩ := hchild c1 hc1 t1 hr1
            obtain ⟨a2, rfl, hch2⟩ := hchild c2 hc2 t2 hr2
            exact siblings_disjoint h ho hac a a1 a2 hch1 hch2 (fun e => hne (by rw [e])) x
              ((accept_recorder_mem h n a1 t1 hr1 x).1 hx1)
              ((accept_recorder_mem h n a2 t2 hr2 x).1 hx2)

/-! ## Termination and absence of faults -/

theorem childOf_acc (h : Heap) (hac : Acyclic h) : ∀ a, Acc (ChildOf h) a := by
  have out : ∀ a, ¬ a < h.length → Acc (ChildOf h) a := by
    intro a ha
    exact Acc.intro a (fun c hc => absurd (childOf_lt_length h c a hc) ha)
  let r : Fin h.length → Fin h.length → Prop :=
    fun i j => Relation.TransGen (ChildOf h) i.val j.val
  haveI : IsTrans (Fin h.length) r := ⟨fun _ _ _ hab hbc => Relation.TransGen.trans hab hbc⟩
  haveI : IsIrrefl (Fin h.length) r := ⟨fun i hi => hac i.val hi⟩
  have wf : WellFounded r := Finite.wellFounded_of_trans_of_irrefl r
  have inside : ∀ i : Fin h.length, Acc (ChildOf h) i.val := by
    intro i
    induction i using wf.induction with
    | _ i ih =>
      refine Acc.intro _ (fun c hc => ?_)
      by_cases hlt : c < h.length
      · exact ih ⟨c, hlt⟩ (Relation.TransGen.single hc)
      · exact out c hlt
  intro a
  by_cases hlt : a < h.length
  · exact inside ⟨a, hlt⟩
  · exact out a hlt

theorem acceptChildren_terminates {σ : Type} (v : PersonVisitor σ) (h : Heap) :
    ∀ (cs : List Ptr), (∀ c ∈ cs, ∀ s, ∃ n r, accept v h n c s = some r) →
      ∀ s, ∃ n r, acceptChildren (accept v h n) cs s = some r := by
  intro cs
  induction cs with
  | nil => intro _ s; exact ⟨0, .ok s, rfl⟩
  | cons c cs ih =>
    intro hall s
    obtain ⟨n1, r1, h1⟩ := hall c (List.mem_cons_self _ _) s
    cases r1 with
    | error e =>
      refine ⟨n1, .error e, ?_⟩
      rw [acceptChildren_cons, h1]
    | ok s1 =>
      obtain ⟨n2, r2, h2⟩ := ih (fun c hc => hall c (List.mem_cons_of_mem _ hc)) s1
      refine ⟨max n1 n2, r2, ?_⟩
      rw [acceptChildren_cons, accept_mono v h n1 (max n1 n2) (le_max_left _ _) c s _ h1]
      exact acceptChildren_mono _ _
        (fun c s r hr => accept_mono v h n2 (max n1 n2) (le_max_right _ _) c s r hr) cs s1 r2 h2

/-- In a heap where no woman is reached from herself through children lists, `accept`
    finishes from every pointer, for every visitor and every state of the visitor. -/
theorem accept_terminates {σ : Type} (v : PersonVisitor σ) (h : Heap) (hac : Acyclic h)
    (p : Ptr) (s : σ) : ∃ n r, accept v h n p s = some r := by
  cases p with
  | none => exact ⟨1, .error .nullDeref, rfl⟩
  | some a =>
    have hacc := childOf_acc h hac a
    induction hacc generalizing s with
    | intro a _ ih =>
      cases hg : h[a]? with
      | none => exact ⟨1, .error .dangling, by simp [accept, deref, hg]⟩
      | some pp =>
        have hd : deref h (some a) = .ok pp := (deref_some_ok h a pp).2 hg
        cases pp with
        | Man l f sp fa mo => exact ⟨1, v.visitMan h (some a) s, by simp [accept, hd]⟩
        | Woman cs f sp fa mo =>
          have hcs : childrenOf h a = cs := childrenOf_woman h a cs f sp fa mo hg
          cases hv : v.visitWoman h (some a) s with
          | error e => exact ⟨1, .error e, by simp [accept, hd, hv]⟩
          | ok s1 =>
            have hall : ∀ c ∈ cs, ∀ s, ∃ n r, accept v h n c s = some r := by
              intro c hc s2
              cases c with
              | none => exact ⟨1, .error .nullDeref, rfl⟩
              | some a1 =>
                refine ih a1 ?_ s2
                unfold ChildOf
                rw [hcs]
                exact hc
            obtain ⟨n, r, hn⟩ := acceptChildren_terminates v h cs hall s1
            refine ⟨n + 1, r, ?_⟩
            rw [accept_succ_eq]
            simp only [hd, hv]
            exact hn

theorem acceptChildren_recorder_ok (f : Ptr → List Nat → Option (Except Fault (List Nat))) :
    ∀ (cs : List Ptr), (∀ c ∈ cs, ∀ log r, f c log = some r → ∃ t, r = .ok t) →
      ∀ log r, acceptChildren f cs log = some r → ∃ t, r = .ok t := by
  intro cs
  induction cs with
  | nil =>
    intro _ log r hr
    simp only [acceptChildren, Option.some.injEq] at hr
    exact ⟨log, hr.symm⟩
  | cons c cs ih =>
    intro hall log r hr
    rw [acceptChildren_cons] at hr
    cases hc : f c log with
    | none => simp [hc] at hr
    | some r1 =>
      obtain ⟨t1, rfl⟩ := hall c (List.mem_cons_self _ _) log r1 hc
      simp only [hc] at hr
      exact ih (fun c hc => hall c (List.mem_cons_of_mem _ hc)) t1 r hr

/-- In a heap whose children lists hold pointers to objects only, the recording visitor
    never faults on a traversal that starts at an object. -/
theorem accept_recorder_ok (h : Heap) (hv : ChildrenValid h) :
    ∀ (n a : Nat) (log : List Nat) (r : Except Fault (List Nat)), a < h.length →
      accept Recorder h n (some a) log = some r → ∃ t, r = .ok t := by
  intro n
  induction n with
  | zero => intro a log r _ hr; simp [accept] at hr
  | succ n ih =>
    intro a log r ha hr
    have hg : h[a]? = some h[a] := List.getElem?_eq_getElem ha
    have hd : deref h (some a) = .ok h[a] := (deref_some_ok h a _).2 hg
    rw [accept_succ_eq] at hr
    cases hpp : h[a] with
    | Man l f sp fa mo =>
      rw [hpp] at hd
      simp only [hd, recorder_visitMan, Option.some.injEq] at hr
      exact ⟨_, hr.symm⟩
    | Woman cs f sp fa mo =>
      rw [hpp] at hd hg
      simp only [hd, recorder_visitWoman] at hr
      have hcs : childrenOf h a = cs := childrenOf_woman h a cs f sp fa mo hg
      refine acceptChildren_recorder_ok _ cs ?_ _ r hr
      intro c hc log2 r2 hr2
      obtain ⟨a1, rfl, hlt⟩ := hv a c (by rw [hcs]; exact hc)
      exact ih a1 log2 r2 hlt hr2

/-- In a heap whose children lists are well formed, the traversal from any object
    finishes with a record, the same for every larger recursion depth. -/
theorem accept_recorder_total (h : Heap) (hv : ChildrenValid h) (hac : Acyclic h) (a : Nat)
    (ha : a < h.length) :
    ∃ n t, ∀ m, n ≤ m → accept Recorder h m (some a) [] = some (.ok t) := by
  obtain ⟨n, r, hn⟩ := accept_terminates Recorder h hac (some a) []
  obtain ⟨t, rfl⟩ := accept_recorder_ok h hv n a [] r ha hn
  exact ⟨n, t, fun m hm => accept_mono Recorder h n m hm _ _ _ hn⟩

/-! ## The example tree is well formed -/

theorem acyclic_of_lt (h : Heap) (hlt : ∀ c w, ChildOf h c w → w < c) : Acyclic h := by
  have key : ∀ x y, Relation.TransGen (ChildOf h) x y → y < x := by
    intro x y hxy
    induction hxy with
    | single hc => exact hlt _ _ hc
    | tail _ hc ih => exact lt_trans (hlt _ _ hc) ih
  intro w hw
  exact lt_irrefl w (key w w hw)

theorem exampleHeap_childrenOf (w : Nat) :
    childrenOf exampleHeap w =
      if w = 1 then [some 2, some 4, some 5]
      else if w = 2 then [some 6, some 7]
      else if w = 8 then [some 9]
      else [] := by
  match w with
  | 0 | 1 | 2 | 3 | 4 | 5 | 6 | 7 | 8 | 9 => rfl
  | w + 10 => simp [childrenOf, exampleHeap]

theorem exampleHeap_childOf (c w : Nat) :
    ChildOf exampleHeap c w ↔
      (w = 1 ∧ (c = 2 ∨ c = 4 ∨ c = 5)) ∨ (w = 2 ∧ (c = 6 ∨ c = 7)) ∨ (w = 8 ∧ c = 9) := by
  unfold ChildOf
  rw [exampleHeap_childrenOf]
  split_ifs with h1 h2 h8
  · subst h1; simp
  · subst h2; simp
  · subst h8; simp
  · simp [h1, h2, h8]

theorem exampleHeap_childrenValid : ChildrenValid exampleHeap := by
  intro w p hp
  rw [exampleHeap_childrenOf] at hp
  have hl : exampleHeap.length = 10 := rfl
  rw [hl]
  split_ifs at hp
  · simp at hp
    rcases hp with rfl | rfl | rfl <;> exact ⟨_, rfl, by decide⟩
  · simp at hp
    rcases hp with rfl | rfl <;> exact ⟨_, rfl, by decide⟩
  · simp at hp
    subst hp
    exact ⟨_, rfl, by decide⟩
  · simp at hp

theorem exampleHeap_oneList : OneList exampleHeap := by
  constructor
  · intro c w1 w2 h1 h2
    rw [exampleHeap_childOf] at h1 h2
    omega
  · intro w
    rw [exampleHeap_childrenOf]
    split_ifs <;> decide

theorem exampleHeap_acyclic : Acyclic exampleHeap := by
  apply acyclic_of_lt
  intro c w hc
  rw [exampleHeap_childOf] at hc
  omega

theorem exampleHeap_underMother : UnderMother exampleHeap := by
  intro c w hc
  rw [exampleHeap_childOf] at hc
  rcases hc with ⟨rfl, rfl | rfl | rfl⟩ | ⟨rfl, rfl | rfl⟩ | ⟨rfl, rfl⟩ <;>
    exact ⟨_, rfl, rfl⟩

theorem exampleHeap_record (n : Nat) :
    accept Recorder exampleHeap (n + 3) (some 1) [] = some (.ok [1, 2, 6, 7, 4, 5]) :=
  accept_mono Recorder exampleHeap 3 (n + 3) (by omega) _ _ _ rfl

/-! ## The traversal of a `Woman` and of a whole tree -/

/-- C1: for every `Woman` object `a` with children list `cs` in a well-formed tree
    (the entries of children lists point to persons, each person is in at most one list
    and once, no woman is under herself), `accept` is, for every visitor, the visit of
    the woman followed by the loop over `cs`; with the recording visitor it finishes
    with the record `a :: ts.flatten`, where `ts` lists, entry by entry and in the order
    of `cs`, the complete record of the traversal of that child, which starts with the
    child; the woman occurs once in the whole record and so does every entry of `cs`;
    and every visitor whose traversal completes was invoked on the persons of this
    record, in this order.  This holds for an empty children list as well. -/
theorem accept_woman_preorder (h : Heap) (a : Nat) (cs : List Ptr) (f : String)
    (sp fa mo : Ptr) (ha : h[a]? = some (.Woman cs f sp fa mo))
    (hv : ChildrenValid h) (ho : OneList h) (hac : Acyclic h) :
    (∀ (σ : Type) (v : PersonVisitor σ) (m : Nat) (s : σ),
      accept v h (m + 1) (some a) s =
        match v.visitWoman h (some a) s with
        | .error e => some (.error e)
        | .ok s1 => acceptChildren (accept v h m) cs s1) ∧
    ∃ (n : Nat) (ts : List (List Nat)),
      (∀ m, n ≤ m → accept Recorder h (m + 1) (some a) [] = some (.ok (a :: ts.flatten))) ∧
      List.Forall₂ (fun c tc => ∃ c1 rest, c = some c1 ∧ tc = c1 :: rest ∧
        ∀ m, n ≤ m → accept Recorder h m c [] = some (.ok tc)) cs ts ∧
      (a :: ts.flatten).count a = 1 ∧
      (∀ c1, some c1 ∈ cs → (a :: ts.flatten).count c1 = 1) ∧
      ∀ (σ : Type) (v : PersonVisitor σ) (m : Nat) (s s1 : σ),
        accept v h m (some a) s = some (.ok s1) →
        accept (Logged v) h m (some a) (s, []) = some (.ok (s1, a :: ts.flatten)) := by
  have hd : deref h (some a) = .ok (.Woman cs f sp fa mo) := (deref_some_ok h a _).2 ha
  have hcs : childrenOf h a = cs := childrenOf_woman h a cs f sp fa mo ha
  have halt : a < h.length := by
    by_contra hge
    rw [List.getElem?_eq_none (by omega)] at ha
    cases ha
  refine ⟨?_, ?_⟩
  · intro σ v m s
    rw [accept_succ_eq]
    simp only [hd]
  · obtain ⟨n, t, hn⟩ := accept_recorder_total h hv hac a halt
    have hn1 := hn (n + 1) (by omega)
    obtain ⟨ts, hts, rfl⟩ := (accept_recorder_woman h n a cs f sp fa mo ha t).1 hn1
    have hnd := accept_recorder_nodup h ho hac (n + 1) a _ hn1
    refine ⟨n, ts, fun m hm => hn (m + 1) (by omega), ?_, ?_, ?_, ?_⟩
    · refine List.Forall₂.imp ?_ hts
      intro c tc hc
      obtain ⟨c1, rest, rfl, -, rfl⟩ := accept_recorder_head h n c tc hc
      exact ⟨c1, rest, rfl, rfl, fun m hm => accept_mono Recorder h n m hm _ _ _ hc⟩
    · exact List.count_eq_one_of_mem hnd (List.mem_cons_self _ _)
    · intro c1 hc1
      refine List.count_eq_one_of_mem hnd ?_
      refine (accept_recorder_mem h (n + 1) a _ hn1 c1).2 ?_
      refine Relation.ReflTransGen.single ?_
      unfold ChildOf
      rw [hcs]
      exact hc1
    · intro σ v m s s1 hs
      obtain ⟨t, ht, hl⟩ := accept_logged v h m (some a) s [] s1 hs
      have e1 := accept_mono Recorder h m (max m n) (le_max_left _ _) _ _ _ ht
      rw [hn (max m n) (le_max_right _ _)] at e1
      have e2 : t = a :: ts.flatten := (Except.ok.inj (Option.some.inj e1)).symm
      rw [hl, e2]

theorem accept_woman_preorder_witness :
    exampleHeap[1]? = some (.Woman [some 2, some 4, some 5] "Mary" (some 0) none none) ∧
    ∃ (n : Nat) (ts : List (List Nat)),
      (∀ m, n ≤ m →
        accept Recorder exampleHeap (m + 1) (some 1) [] = some (.ok (1 :: ts.flatten))) ∧
      List.Forall₂ (fun c tc => ∃ c1 rest, c = some c1 ∧ tc = c1 :: rest ∧
        ∀ m, n ≤ m → accept Recorder exampleHeap m c [] = some (.ok tc))
        [some 2, some 4, some 5] ts ∧
      (1 :: ts.flatten).count 1 = 1 ∧
      (∀ c1, some c1 ∈ [some 2, some 4, some 5] → (1 :: ts.flatten).count c1 = 1) ∧
      ∀ (σ : Type) (v : PersonVisitor σ) (m : Nat) (s s1 : σ),
        accept v exampleHeap m (some 1) s = some (.ok s1) →
        accept (Logged v) exampleHeap m (some 1) (s, []) = some (.ok (s1, 1 :: ts.flatten)) :=
  ⟨rfl, (accept_woman_preorder exampleHeap 1 [some 2, some 4, some 5] "Mary" (some 0) none
    none rfl exampleHeap_childrenValid exampleHeap_oneList exampleHeap_acyclic).2⟩

/-- C4 (amended): in every tree that satisfies the invariants of the children
    lists (their entries point to persons, each person is in at most one list and once,
    no woman is under herself), the traversal started at any person finishes, visits
    exactly once each person reached from the start through children lists, the start
    included, and visits nobody else. -/
theorem traversal_visits_reachable_once (h : Heap) (root : Nat) (hroot : root < h.length)
    (hv : ChildrenValid h) (ho : OneList h) (hac : Acyclic h) :
    ∃ (n : Nat) (t : List Nat),
      (∀ m, n ≤ m → accept Recorder h m (some root) [] = some (.ok t)) ∧
      ∀ x, (Reach h x root → t.count x = 1) ∧ (¬ Reach h x root → t.count x = 0) := by
  obtain ⟨n, t, hn⟩ := accept_recorder_total h hv hac root hroot
  have hnn := hn n (le_refl n)
  refine ⟨n, t, hn, fun x => ⟨fun hx => ?_, fun hx => ?_⟩⟩
  · exact List.count_eq_one_of_mem (accept_recorder_nodup h ho hac n root t hnn)
      ((accept_recorder_mem h n root t hnn x).2 hx)
  · exact List.count_eq_zero_of_not_mem (fun hm => hx ((accept_recorder_mem h n root t hnn x).1 hm))

theorem traversal_visits_reachable_once_witness :
    ∃ (n : Nat) (t : List Nat),
      (∀ m, n ≤ m → accept Recorder exampleHeap m (some 1) [] = some (.ok t)) ∧
      ∀ x, (Reach exampleHeap x 1 → t.count x = 1) ∧
        (¬ Reach exampleHeap x 1 → t.count x = 0) :=
  traversal_visits_reachable_once exampleHeap 1 (by decide) exampleHeap_childrenValid
    exampleHeap_oneList exampleHeap_acyclic

/-- C4 fails as stated: the example tree satisfies the invariants, Susan (address 9) is a
    descendant of Mary (address 1) through her father Michael, his mother Patricia and
    her mother Mary, and the traversal from Mary does not visit Susan. -/
theorem descendant_through_father_not_visited :
    ¬ ∀ (h : Heap) (root x : Nat), ChildrenValid h → UnderMother h → OneList h →
        Acyclic h → Descendant h x root →
        ∃ n t, accept Recorder h n (some root) [] = some (.ok t) ∧ t.count x = 1 := by
  intro hall
  have hdesc : Descendant exampleHeap 9 1 := by
    have h96 : ParentOf exampleHeap 6 9 := ⟨_, rfl, Or.inl rfl⟩
    have h62 : ParentOf exampleHeap 2 6 := ⟨_, rfl, Or.inr rfl⟩
    have h21 : ParentOf exampleHeap 1 2 := ⟨_, rfl, Or.inr rfl⟩
    exact Relation.TransGen.head h96 (Relation.TransGen.head h62 (Relation.TransGen.single h21))
  obtain ⟨n, t, hn, hc⟩ := hall exampleHeap 1 9 exampleHeap_childrenValid
    exampleHeap_underMother exampleHeap_oneList exampleHeap_acyclic hdesc
  have h1 := accept_mono Recorder exampleHeap n (n + 3) (by omega) _ _ _ hn
  rw [exampleHeap_record n] at h1
  have ht : t = [1, 2, 6, 7, 4, 5] := (Except.ok.inj (Option.some.inj h1)).symm
  subst ht
  exact absurd hc (by decide)

/-! ## `NameHolder`: the parents record, the marital status and the name -/

theorem vecSet_nil (i : Nat) (x : String) : vecSet [] i x = .error .outOfRange := by
  simp [vecSet]

/-- With an empty `parentsNames_` the statements that record the parents never return:
    they fault at the father, at the write of slot 0, or at the test of the father's
    spouse. -/
theorem recordParents_empty_never_returns (h : Heap) (father : Ptr) (nh nh1 : NameHolder)
    (hv : nh.parentsNames_ = []) : NameHolder.recordParents h father nh ≠ .ok nh1 := by
  cases father with
  | none => rw [recordParents_no_father]; exact fun hc => by cases hc
  | some f =>
    unfold NameHolder.recordParents
    cases hd : derefMan h (some f) with
    | error e => simp
    | ok fa =>
      cases hl : fa.getLastName with
      | error e => simp [hl]
      | ok flast => simp [hl, hv, vecSet_nil]

/-- C11: the parents record of a newly constructed `NameHolder` is an empty vector, and
    on the example tree its visit of Robert and its visit of Linda, both unmarried with
    father James, fault at the write of slot 0; only on a holder whose vector already has
    two slots does the visit of Robert leave James Smith in slot 0 and Mary Smith in
    slot 1. -/
theorem nameHolder_new_parents_out_of_range :
    NameHolder.new.parentsNames_ = [] ∧
    NameHolder.visitMan exampleHeap (some 4) NameHolder.new = .error .outOfRange ∧
    NameHolder.visitWoman exampleHeap (some 5) NameHolder.new = .error .outOfRange ∧
    NameHolder.visitMan exampleHeap (some 4)
        { name_ := "", married_ := false, parentsNames_ := ["", ""], siblingsNames_ := [] } =
      .ok { name_ := "Robert Smith", married_ := false,
            parentsNames_ := ["James Smith", "Mary Smith"], siblingsNames_ := [] } :=
  ⟨rfl, rfl, rfl, rfl⟩

/-- From a holder with an empty parents record a visit returns only for a married
    person, with the status true and the parents record still empty. -/
theorem nameHolder_returns_only_married (h : Heap) (p : Ptr) (nh nh1 : NameHolder)
    (hv : nh.parentsNames_ = []) :
    (NameHolder.visitMan h p nh = .ok nh1 →
      (∃ pm, deref h p = .ok pm ∧ pm.getSpouse ≠ none) ∧ nh1.married_ = true ∧
        nh1.parentsNames_ = []) ∧
    (NameHolder.visitWoman h p nh = .ok nh1 →
      (∃ pw, deref h p = .ok pw ∧ pw.getSpouse ≠ none) ∧ nh1.married_ = true ∧
        nh1.parentsNames_ = []) := by
  constructor
  · intro hr
    unfold NameHolder.visitMan derefMan at hr
    cases hd : deref h p with
    | error e => simp [hd] at hr
    | ok pp =>
      cases pp with
      | Woman cs f sp fa mo => simp [hd] at hr
      | Man l f sp fa mo =>
        simp only [hd, Person.getLastName, Person.getSpouse, Person.getFirstName,
          Person.getFather] at hr
        by_cases hsp : sp = none
        · subst hsp
          simp only [ne_eq, not_true_eq_false, if_false] at hr
          exact absurd hr (recordParents_empty_never_returns h fa _ nh1 hv)
        · simp only [ne_eq, hsp, not_false_eq_true, if_true, Except.ok.injEq] at hr
          subst hr
          exact ⟨⟨_, rfl, by simpa [Person.getSpouse] using hsp⟩, rfl, hv⟩
  · intro hr
    unfold NameHolder.visitWoman derefWoman at hr
    cases hd : deref h p with
    | error e => simp [hd] at hr
    | ok pp =>
      cases pp with
      | Man l f sp fa mo => simp [hd] at hr
      | Woman cs f sp fa mo =>
        simp only [hd, Person.getSpouse, Person.getFirstName, Person.getFather] at hr
        by_cases hsp : sp = none
        · subst hsp
          simp only [ne_eq, not_true_eq_false, if_false] at hr
          split at hr
          · cases hr
          · exact absurd hr (recordParents_empty_never_returns h fa _ nh1 hv)
        · simp only [ne_eq, hsp, not_false_eq_true, if_true] at hr
          split at hr
          · cases hr
          · simp only [Except.ok.injEq] at hr
            subst hr
            exact ⟨⟨_, rfl, by simpa [Person.getSpouse] using hsp⟩, rfl, hv⟩

/-- C12: on the example tree a new `NameHolder` that visits James, who is married,
    records the status true; its next visit, of the unmarried Robert, faults at the write
    of slot 0 and returns no record with the status false; and on a holder whose vector
    has two slots the visit of Robert returns with the status still true, the member
    being assigned only on the married branch. -/
theorem nameHolder_status_after_married_visit :
    NameHolder.visitMan exampleHeap (some 0) NameHolder.new =
      .ok { name_ := "James Smith", married_ := true, parentsNames_ := [],
            siblingsNames_ := [] } ∧
    exampleHeap[4]?.map Person.getSpouse = some none ∧
    NameHolder.visitMan exampleHeap (some 4)
        { name_ := "James Smith", married_ := true, parentsNames_ := [],
          siblingsNames_ := [] } = .error .outOfRange ∧
    NameHolder.visitMan exampleHeap (some 4)
        { name_ := "James Smith", married_ := true, parentsNames_ := ["", ""],
          siblingsNames_ := [] } =
      .ok { name_ := "Robert Smith", married_ := true,
            parentsNames_ := ["James Smith", "Mary Smith"], siblingsNames_ := [] } :=
  ⟨rfl, rfl, rfl, rfl⟩

theorem derefMan_cases (h : Heap) (p : Ptr) :
    (∃ e, derefMan h p = .error e) ∨
      ∃ l f sp fa mo, derefMan h p = .ok (.Man l f sp fa mo) ∧
        deref h p = .ok (.Man l f sp fa mo) := by
  unfold derefMan
  cases hd : deref h p with
  | error e => exact Or.inl ⟨e, rfl⟩
  | ok pp =>
    cases pp with
    | Man l f sp fa mo => exact Or.inr ⟨l, f, sp, fa, mo, rfl, rfl⟩
    | Woman cs f sp fa mo => exact Or.inl ⟨_, rfl⟩

theorem derefWoman_cases (h : Heap) (p : Ptr) :
    (∃ e, derefWoman h p = .error e ∧ ∀ pp, deref h p = .ok pp → pp.isMan = true) ∨
      ∃ cs f sp fa mo, derefWoman h p = .ok (.Woman cs f sp fa mo) ∧
        deref h p = .ok (.Woman cs f sp fa mo) := by
  unfold derefWoman
  cases hd : deref h p with
  | error e => exact Or.inl ⟨e, rfl, fun pp hc => by cases hc⟩
  | ok pp =>
    cases pp with
    | Man l f sp fa mo => exact Or.inl ⟨_, rfl, fun pp hc => by cases hc; rfl⟩
    | Woman cs f sp fa mo => exact Or.inr ⟨cs, f, sp, fa, mo, rfl, rfl⟩

/-- C13: for every person pointer, the value `NameHolder::visit` assigns to `name_` and
    the line `NamePrinter` writes are the same text up to the line end, faults included:
    `NamePrinter` writes exactly that value followed by the line end, for a `Man` and
    for a `Woman`.  The visit of a `NameHolder` is the assignment of that value followed
    by the statements on the marital status and the parents, so every record it returns
    holds that value in `name_`, and for a married person whose name resolves it returns
    the record. -/
theorem nameHolder_name_is_namePrinter_line (h : Heap) (p : Ptr) (out : String) :
    NamePrinter.visitMan h p out =
      (NameHolder.nameMan h p).map (fun nm => out ++ nm ++ "\n") ∧
    NamePrinter.visitWoman h p out =
      (NameHolder.nameWoman h p).map (fun nm => out ++ nm ++ "\n") ∧
    (∀ nh : NameHolder, NameHolder.visitMan h p nh =
      match NameHolder.nameMan h p, deref h p with
      | .ok nm, .ok pm =>
        if pm.getSpouse ≠ none then
          .ok { name_ := nm, married_ := true, parentsNames_ := nh.parentsNames_,
                siblingsNames_ := nh.siblingsNames_ }
        else NameHolder.recordParents h pm.getFather { nh with name_ := nm }
      | .ok _, .error e => .error e
      | .error e, _ => .error e) ∧
    (∀ nh : NameHolder, NameHolder.visitWoman h p nh =
      match NameHolder.nameWoman h p, deref h p with
      | .ok nm, .ok pw =>
        if pw.getSpouse ≠ none then
          .ok { name_ := nm, married_ := true, parentsNames_ := nh.parentsNames_,
                siblingsNames_ := nh.siblingsNames_ }
        else NameHolder.recordParents h pw.getFather { nh with name_ := nm }
      | .ok _, .error e => .error e
      | .error e, _ => .error e) := by
  refine ⟨?_, ?_, ?_, ?_⟩
  · simp only [NamePrinter, NameHolder.nameMan]
    rcases derefMan_cases h p with ⟨e, he⟩ | ⟨l, f, sp, fa, mo, hm, -⟩
    · simp [he, Except.map]
    · simp [hm, Except.map, Person.getLastName, Person.getFirstName, String.append_assoc]
  · simp only [NamePrinter, NameHolder.nameWoman]
    rcases derefWoman_cases h p with ⟨e, he, -⟩ | ⟨cs, f, sp, fa, mo, hw, -⟩
    · simp [he, Except.map]
    · simp only [hw, Person.getSpouse, Person.getFather, Person.getFirstName]
      by_cases hsp : sp = none
      · by_cases hfa : fa = none
        · simp [hsp, hfa, Except.map, String.append_assoc]
        · rcases derefMan_cases h fa with ⟨e, he⟩ | ⟨l2, f2, sp2, fa2, mo2, hm, -⟩
          · simp [hsp, hfa, he, Except.map]
          · simp [hsp, hfa, hm, Except.map, Person.getLastName, String.append_assoc]
      · rcases derefMan_cases h sp with ⟨e, he⟩ | ⟨l2, f2, sp2, fa2, mo2, hm, -⟩
        · simp [hsp, he, Except.map]
        · simp [hsp, hm, Except.map, Person.getLastName, String.append_assoc]
  · intro nh
    simp only [NameHolder.visitMan, NameHolder.nameMan]
    rcases derefMan_cases h p with ⟨e, he⟩ | ⟨l, f, sp, fa, mo, hm, hd⟩
    · simp [he]
    · simp [hm, hd, Person.getLastName]
  · intro nh
    simp only [NameHolder.visitWoman, NameHolder.nameWoman]
    rcases derefWoman_cases h p with ⟨e, he, -⟩ | ⟨cs, f, sp, fa, mo, hw, hd⟩
    · simp [he]
    · simp only [hw, hd, Person.getSpouse, Person.getFather, Person.getFirstName]
      by_cases hsp : sp = none
      · by_cases hfa : fa = none
        · simp [hsp, hfa]
        · rcases derefMan_cases h fa with ⟨e, he⟩ | ⟨l2, f2, sp2, fa2, mo2, hm, -⟩
          · simp [hsp, hfa, he]
          · simp [hsp, hfa, hm, Person.getLastName]
      · rcases derefMan_cases h sp with ⟨e, he⟩ | ⟨l2, f2, sp2, fa2, mo2, hm, -⟩
        · simp [hsp, he]
        · simp [hsp, hm, Person.getLastName]

/-! ## `setSpouse`: frame, and the names that follow or ignore the spouse link -/

theorem setSpouse_ok (h : Heap) (a : Nat) (b : Ptr) (pa : Person) (ha : h[a]? = some pa) :
    setSpouse h (some a) b = .ok (h.set a (pa.withSpouse b)) := by
  simp [setSpouse, ha]

theorem getElem?_set_self_of_some (h : Heap) (a : Nat) (pa q : Person)
    (ha : h[a]? = some pa) : (h.set a q)[a]? = some q := by
  have hlt : a < h.length := by
    by_contra hge
    rw [List.getElem?_eq_none (by omega)] at ha
    cases ha
  simp [List.getElem?_set, hlt]

theorem getElem?_set_other (h : Heap) (a i : Nat) (q : Person) (hi : i ≠ a) :
    (h.set a q)[i]? = h[i]? := by
  simp [List.getElem?_set, Ne.symm hi]

theorem deref_set_other (h : Heap) (a i : Nat) (q : Person) (hi : i ≠ a) :
    deref (h.set a q) (some i) = deref h (some i) := by
  simp [deref, getElem?_set_other h a i q hi]

/-- C14: for every object `a` and every pointer `b`, `a->setSpouse(b)` succeeds without
    any test of `b`, makes `b` the spouse link of `a`, keeps the class, first name,
    father, mother, family name and children list of `a`, and leaves every other object
    of the heap as it was, the object `b` points to included: its spouse link is not
    made to point back. -/
theorem setSpouse_frame (h : Heap) (a : Nat) (b : Ptr) (pa : Person)
    (ha : h[a]? = some pa) :
    ∃ h2, setSpouse h (some a) b = .ok h2 ∧ h2.length = h.length ∧
      (∃ pa2, h2[a]? = some pa2 ∧ pa2.getSpouse = b ∧ pa2.isMan = pa.isMan ∧
        pa2.getFirstName = pa.getFirstName ∧ pa2.getFather = pa.getFather ∧
        pa2.getMother = pa.getMother ∧ pa2.getLastName = pa.getLastName ∧
        pa2.getChildren = pa.getChildren) ∧
      (∀ i, i ≠ a → h2[i]? = h[i]?) ∧
      (∀ b0, b = some b0 → b0 ≠ a → h2[b0]? = h[b0]?) := by
  refine ⟨_, setSpouse_ok h a b pa ha, by simp, ?_, ?_, ?_⟩
  · refine ⟨_, getElem?_set_self_of_some h a pa _ ha, ?_⟩
    cases pa <;> simp [Person.withSpouse, Person.getSpouse, Person.isMan,
      Person.getFirstName, Person.getFather, Person.getMother, Person.getLastName,
      Person.getChildren]
  · intro i hi
    exact getElem?_set_other h a i _ hi
  · intro b0 _ hb0
    exact getElem?_set_other h a b0 _ hb0

theorem setSpouse_frame_witness :
    ∃ h2, setSpouse [.Man "Smith" "James" none none none, .Woman [] "Mary" none none none]
        (some 1) (some 0) = .ok h2 ∧
      h2[1]?.map Person.getSpouse = some (some 0) ∧
      h2[0]?.map Person.getSpouse = some none := by
  obtain ⟨h2, h1, -, ⟨pa2, hpa, hsp, -⟩, hother, -⟩ :=
    setSpouse_frame [.Man "Smith" "James" none none none, .Woman [] "Mary" none none none]
      1 (some 0) (.Woman [] "Mary" none none none) rfl
  refine ⟨h2, h1, ?_, ?_⟩
  · rw [hpa]; simp [hsp]
  · rw [hother 0 (by decide)]; rfl

/-- C15: for every `Woman` object `w`, whatever her spouse link was: after
    `w->setSpouse(s)` with `s` a `Man`, `NamePrinter` writes her first name, a space and
    the family name of `s`; after `w->setSpouse(nullptr)` it writes her first name with
    her father's family name when her father is a `Man` of the heap, and with `Doe` when
    she has no father. -/
theorem namePrinter_follows_spouse_link (h : Heap) (w : Nat) (out : String)
    (cs : List Ptr) (first : String) (sp fa mo : Ptr)
    (hw : h[w]? = some (.Woman cs first sp fa mo)) :
    (∀ (s : Nat) (slast sfirst : String) (ssp sfa smo : Ptr),
      h[s]? = some (.Man slast sfirst ssp sfa smo) →
      ∃ h2, setSpouse h (some w) (some s) = .ok h2 ∧
        NamePrinter.visitWoman h2 (some w) out =
          .ok (out ++ (first ++ " " ++ slast) ++ "\n")) ∧
    ∃ h3, setSpouse h (some w) none = .ok h3 ∧
      (∀ (f : Nat) (flast ffirst : String) (fsp ffa fmo : Ptr), fa = some f →
        h[f]? = some (.Man flast ffirst fsp ffa fmo) →
        NamePrinter.visitWoman h3 (some w) out =
          .ok (out ++ (first ++ " " ++ flast) ++ "\n")) ∧
      (fa = none →
        NamePrinter.visitWoman h3 (some w) out =
          .ok (out ++ (first ++ " " ++ "Doe") ++ "\n")) := by
  constructor
  · intro s slast sfirst ssp sfa smo hs
    refine ⟨_, setSpouse_ok h w (some s) _ hw, ?_⟩
    have hne : s ≠ w := by
      rintro rfl
      rw [hw] at hs
      cases hs
    have h1 : deref (h.set w ((Person.Woman cs first sp fa mo).withSpouse (some s))) (some w) =
        .ok (.Woman cs first (some s) fa mo) := by
      rw [deref_some_ok]
      exact getElem?_set_self_of_some h w _ _ hw
    have h2 : deref (h.set w ((Person.Woman cs first sp fa mo).withSpouse (some s))) (some s) =
        .ok (.Man slast sfirst ssp sfa smo) := by
      rw [deref_set_other h w s _ hne, deref_some_ok]
      exact hs
    simp [NamePrinter, derefWoman, derefMan, h1, h2, Person.getFirstName,
      Person.getSpouse, Person.getLastName, String.append_assoc]
  · refine ⟨_, setSpouse_ok h w none _ hw, ?_, ?_⟩
    · intro f flast ffirst fsp ffa fmo hfa hf
      subst hfa
      have hne : f ≠ w := by
        rintro rfl
        rw [hw] at hf
        cases hf
      have h1 : deref (h.set w ((Person.Woman cs first sp (some f) mo).withSpouse none))
          (some w) = .ok (.Woman cs first none (some f) mo) := by
        rw [deref_some_ok]
        exact getElem?_set_self_of_some h w _ _ hw
      have h2 : deref (h.set w ((Person.Woman cs first sp (some f) mo).withSpouse none))
          (some f) = .ok (.Man flast ffirst fsp ffa fmo) := by
        rw [deref_set_other h w f _ hne, deref_some_ok]
        exact hf
      simp [NamePrinter, derefWoman, derefMan, h1, h2, Person.getFirstName,
        Person.getSpouse, Person.getFather, Person.getLastName, String.append_assoc]
    · rintro rfl
      have h1 : deref (h.set w ((Person.Woman cs first sp none mo).withSpouse none))
          (some w) = .ok (.Woman cs first none none mo) := by
        rw [deref_some_ok]
        exact getElem?_set_self_of_some h w _ _ hw
      simp [NamePrinter, derefWoman, h1, Person.getFirstName,
        Person.getSpouse, Person.getFather, String.append_assoc]

theorem namePrinter_follows_spouse_link_witness :
    (∃ h2, setSpouse exampleHeap (some 2) (some 4) = .ok h2 ∧
      NamePrinter.visitWoman h2 (some 2) "" =
        .ok ("" ++ ("Patricia" ++ " " ++ "Smith") ++ "\n")) ∧
    ∃ h3, setSpouse exampleHeap (some 8) none = .ok h3 ∧
      NamePrinter.visitWoman h3 (some 8) "" = .ok ("" ++ ("Jennifer" ++ " " ++ "Doe") ++ "\n") :=
  ⟨(namePrinter_follows_spouse_link exampleHeap 2 "" [some 6, some 7] "Patricia" (some 3)
      (some 0) (some 1) rfl).1 4 "Smith" "Robert" none (some 0) (some 1) rfl,
   (namePrinter_follows_spouse_link exampleHeap 8 "" [some 9] "Jennifer" (some 6)
      none none rfl).2.imp (fun _ hh => ⟨hh.1, hh.2.2 rfl⟩)⟩

/-- C20: for every `Woman` object `w` and every pointer `s`, `w->setSpouse(s)` succeeds
    and `MaidenNamePrinter` gives for `w` the same outcome on the heap after the call as
    on the heap before it. -/
theorem maidenName_unchanged_by_setSpouse (h : Heap) (w : Nat) (s : Ptr) (out : String)
    (cs : List Ptr) (first : String) (sp fa mo : Ptr)
    (hw : h[w]? = some (.Woman cs first sp fa mo)) :
    ∃ h2, setSpouse h (some w) s = .ok h2 ∧
      MaidenNamePrinter.visitWoman h2 (some w) out =
        MaidenNamePrinter.visitWoman h (some w) out := by
  refine ⟨_, setSpouse_ok h w s _ hw, ?_⟩
  have h0 : deref h (some w) = .ok (.Woman cs first sp fa mo) := (deref_some_ok h w _).2 hw
  have h1 : deref (h.set w ((Person.Woman cs first sp fa mo).withSpouse s)) (some w) =
      .ok (.Woman cs first s fa mo) := by
    rw [deref_some_ok]
    exact getElem?_set_self_of_some h w _ _ hw
  cases fa with
  | none =>
    simp [MaidenNamePrinter.visitWoman, derefWoman, h0, h1, Person.getFirstName,
      Person.getFather]
  | some f =>
    by_cases hf : f = w
    · subst hf
      simp [MaidenNamePrinter.visitWoman, derefWoman, derefMan, h0, h1,
        Person.getFirstName, Person.getFather]
    · have h2 := deref_set_other h w f ((Person.Woman cs first sp (some f) mo).withSpouse s) hf
      simp [MaidenNamePrinter.visitWoman, derefWoman, derefMan, h0, h1, h2,
        Person.getFirstName, Person.getFather]

theorem maidenName_unchanged_by_setSpouse_witness :
    ∃ h2, setSpouse exampleHeap (some 5) (some 3) = .ok h2 ∧
      MaidenNamePrinter.visitWoman h2 (some 5) "" = .ok "Linda Smith\n" :=
  (maidenName_unchanged_by_setSpouse exampleHeap 5 (some 3) "" [] "Linda" none (some 0)
    (some 1) rfl).imp (fun _ hh => ⟨hh.1, hh.2.trans rfl⟩)

/-! ## The printing visitors test a link before they follow it -/

theorem exists_ok_of_toBool {α : Type} (x : Except Fault α) (hx : x.toBool = true) :
    ∃ o, x = .ok o := by
  cases x with
  | error e => simp [Except.toBool] at hx
  | ok o => exact ⟨o, rfl⟩

theorem wellTyped_at (h : Heap) (hwt : WellTyped h) (a : Nat) (pp : Person)
    (ha : h[a]? = some pp) : linksOk h pp = true := by
  unfold WellTyped at hwt
  rw [List.all_eq_true] at hwt
  exact hwt pp (List.getElem?_mem ha)

theorem pointsToMan_elim (h : Heap) (p : Ptr) (hp : pointsToMan h p = true) :
    ∃ l f sp fa mo, deref h p = .ok (.Man l f sp fa mo) := by
  unfold pointsToMan at hp
  cases hd : deref h p with
  | error e => simp [hd] at hp
  | ok pp =>
    cases pp with
    | Man l f sp fa mo => exact ⟨l, f, sp, fa, mo, rfl⟩
    | Woman cs f sp fa mo => simp [hd, Person.isMan] at hp

theorem pointsToWoman_elim (h : Heap) (p : Ptr) (hp : pointsToWoman h p = true) :
    ∃ a cs f sp fa mo, p = some a ∧ h[a]? = some (.Woman cs f sp fa mo) := by
  unfold pointsToWoman at hp
  cases p with
  | none => simp [deref] at hp
  | some a =>
    cases hd : deref h (some a) with
    | error e => simp [hd] at hp
    | ok pp =>
      cases pp with
      | Man l f sp fa mo => simp [hd, Person.isMan] at hp
      | Woman cs f sp fa mo =>
        exact ⟨a, cs, f, sp, fa, mo, rfl, (deref_some_ok h a _).1 hd⟩

theorem printNames_ok (h : Heap) :
    ∀ (cs : List Ptr) (out : String), cs.all (pointsToPerson h) = true →
      ∃ o, ChildrenPrinter.printNames h cs out = .ok o := by
  intro cs
  induction cs with
  | nil => intro out _; exact ⟨out, rfl⟩
  | cons c cs ih =>
    intro out hall
    rw [List.all_cons, Bool.and_eq_true] at hall
    unfold ChildrenPrinter.printNames
    cases hd : deref h c with
    | error e => simp [pointsToPerson, hd] at hall
    | ok pc => exact ih _ hall.2

theorem absent_or (p : Ptr) (b : Bool) (hb : (p.isNone || b) = true) : p = none ∨ b = true := by
  cases p with
  | none => exact Or.inl rfl
  | some a => exact Or.inr (by simpa using hb)

theorem namePrinter_woman_ok (h : Heap) (hwt : WellTyped h) (a : Nat) (cs : List Ptr)
    (f : String) (sp fa mo : Ptr) (ha : h[a]? = some (.Woman cs f sp fa mo)) (out : String) :
    ∃ o, NamePrinter.visitWoman h (some a) out = .ok o := by
  have hl := wellTyped_at h hwt a _ ha
  simp only [linksOk, Bool.and_eq_true] at hl
  have hd : deref h (some a) = .ok (.Woman cs f sp fa mo) := (deref_some_ok h a _).2 ha
  rcases absent_or _ _ hl.1.1.1 with rfl | hsp
  · rcases absent_or _ _ hl.1.1.2 with rfl | hfa
    · exact exists_ok_of_toBool _ (by simp [NamePrinter, derefWoman, hd, Person.getSpouse, Person.getFather, Except.toBool])
    · obtain ⟨l2, f2, sp2, fa2, mo2, hm⟩ := pointsToMan_elim h fa hfa
      have hne : fa ≠ none := by rintro rfl; simp [deref] at hm
      exact exists_ok_of_toBool _ (by simp [NamePrinter, derefWoman, derefMan, hd, hm, hne, Person.getSpouse,
        Person.getFather, Person.getLastName, Except.toBool])
  · obtain ⟨l2, f2, sp2, fa2, mo2, hm⟩ := pointsToMan_elim h sp hsp
    have hne : sp ≠ none := by rintro rfl; simp [deref] at hm
    exact exists_ok_of_toBool _ (by simp [NamePrinter, derefWoman, derefMan, hd, hm, hne, Person.getSpouse,
      Person.getLastName, Except.toBool])

theorem maidenNamePrinter_woman_ok (h : Heap) (hwt : WellTyped h) (a : Nat) (cs : List Ptr)
    (f : String) (sp fa mo : Ptr) (ha : h[a]? = some (.Woman cs f sp fa mo)) (out : String) :
    ∃ o, MaidenNamePrinter.visitWoman h (some a) out = .ok o := by
  have hl := wellTyped_at h hwt a _ ha
  simp only [linksOk, Bool.and_eq_true] at hl
  have hd : deref h (some a) = .ok (.Woman cs f sp fa mo) := (deref_some_ok h a _).2 ha
  rcases absent_or _ _ hl.1.1.2 with rfl | hfa
  · exact exists_ok_of_toBool _ (by simp [MaidenNamePrinter.visitWoman, derefWoman, hd, Person.getFather, Except.toBool])
  · obtain ⟨l2, f2, sp2, fa2, mo2, hm⟩ := pointsToMan_elim h fa hfa
    have hne : fa ≠ none := by rintro rfl; simp [deref] at hm
    exact exists_ok_of_toBool _ (by simp [MaidenNamePrinter.visitWoman, derefWoman, derefMan, hd, hm, hne,
      Person.getFather, Person.getLastName, Except.toBool])

theorem childrenPrinter_woman_ok (h : Heap) (hwt : WellTyped h) (a : Nat) (cs : List Ptr)
    (f : String) (sp fa mo : Ptr) (ha : h[a]? = some (.Woman cs f sp fa mo)) (out : String) :
    ∃ o, ChildrenPrinter.visitWoman h (some a) out = .ok o := by
  have hl := wellTyped_at h hwt a _ ha
  simp only [linksOk, Bool.and_eq_true] at hl
  have hd : deref h (some a) = .ok (.Woman cs f sp fa mo) := (deref_some_ok h a _).2 ha
  obtain ⟨o, ho⟩ := printNames_ok h cs (out ++ f ++ ": ") hl.2
  exact exists_ok_of_toBool _ (by simp [ChildrenPrinter, derefWoman, hd, Person.getChildren,
    Person.getFirstName, ho, Except.toBool])

/-- C16: in a heap whose links are as the data model has them (each of the spouse,
    father and mother links absent or pointing to a person of the right class, children
    lists of any length holding pointers to persons), the visit of `NamePrinter`, of
    `MaidenNamePrinter` and of `ChildrenPrinter` on every person, `Man` or `Woman`,
    returns its output: no fault, so no dereference of an absent link. -/
theorem printers_complete (h : Heap) (hwt : WellTyped h) (a : Nat) (pp : Person)
    (ha : h[a]? = some pp) (out : String) :
    (pp.isMan = true →
      (∃ o, NamePrinter.visitMan h (some a) out = .ok o) ∧
      (∃ o, MaidenNamePrinter.visitMan h (some a) out = .ok o) ∧
      (∃ o, ChildrenPrinter.visitMan h (some a) out = .ok o)) ∧
    (pp.isMan = false →
      (∃ o, NamePrinter.visitWoman h (some a) out = .ok o) ∧
      (∃ o, MaidenNamePrinter.visitWoman h (some a) out = .ok o) ∧
      (∃ o, ChildrenPrinter.visitWoman h (some a) out = .ok o)) := by
  cases pp with
  | Woman cs f sp fa mo =>
    refine ⟨fun hc => by simp [Person.isMan] at hc, fun _ => ?_⟩
    exact ⟨namePrinter_woman_ok h hwt a cs f sp fa mo ha out,
      maidenNamePrinter_woman_ok h hwt a cs f sp fa mo ha out,
      childrenPrinter_woman_ok h hwt a cs f sp fa mo ha out⟩
  | Man l f sp fa mo =>
    refine ⟨fun _ => ?_, fun hc => by simp [Person.isMan] at hc⟩
    have hl := wellTyped_at h hwt a _ ha
    simp only [linksOk, Bool.and_eq_true] at hl
    have hd : deref h (some a) = .ok (.Man l f sp fa mo) := (deref_some_ok h a _).2 ha
    refine ⟨exists_ok_of_toBool _ (by simp [NamePrinter, derefMan, hd, Person.getLastName, Except.toBool]), ?_, ?_⟩
    · rcases absent_or _ _ hl.1.1 with rfl | hsp
      · exact exists_ok_of_toBool _ (by simp [MaidenNamePrinter.visitMan, derefMan, hd, Person.getSpouse, Except.toBool])
      · obtain ⟨s, cs2, f2, sp2, fa2, mo2, rfl, hs⟩ := pointsToWoman_elim h sp hsp
        obtain ⟨o, ho⟩ := maidenNamePrinter_woman_ok h hwt s cs2 f2 sp2 fa2 mo2 hs out
        exact exists_ok_of_toBool _ (by simp [MaidenNamePrinter.visitMan, derefMan, hd, Person.getSpouse, ho, Except.toBool])
    · rcases absent_or _ _ hl.1.1 with rfl | hsp
      · exact exists_ok_of_toBool _ (by simp [ChildrenPrinter, derefMan, hd, Person.getSpouse, Except.toBool])
      · obtain ⟨s, cs2, f2, sp2, fa2, mo2, rfl, hs⟩ := pointsToWoman_elim h sp hsp
        have hl2 := wellTyped_at h hwt s _ hs
        simp only [linksOk, Bool.and_eq_true] at hl2
        have hds : deref h (some s) = .ok (.Woman cs2 f2 sp2 fa2 mo2) :=
          (deref_some_ok h s _).2 hs
        obtain ⟨o, ho⟩ := printNames_ok h cs2 (out ++ f ++ ": ") hl2.2
        exact exists_ok_of_toBool _ (by simp [ChildrenPrinter, derefMan, derefWoman, hd, hds, Person.getSpouse,
          Person.getChildren, Person.getFirstName, ho, Except.toBool])

theorem exampleHeap_wellTyped : WellTyped exampleHeap := by
  unfold WellTyped
  rfl

theorem printers_complete_witness :
    ((∃ o, NamePrinter.visitMan exampleHeap (some 4) "" = .ok o) ∧
      (∃ o, MaidenNamePrinter.visitMan exampleHeap (some 4) "" = .ok o) ∧
      (∃ o, ChildrenPrinter.visitMan exampleHeap (some 4) "" = .ok o)) ∧
    ((∃ o, NamePrinter.visitWoman exampleHeap (some 9) "" = .ok o) ∧
      (∃ o, MaidenNamePrinter.visitWoman exampleHeap (some 9) "" = .ok o) ∧
      (∃ o, ChildrenPrinter.visitWoman exampleHeap (some 9) "" = .ok o)) :=
  ⟨(printers_complete exampleHeap exampleHeap_wellTyped 4
      (.Man "Smith" "Robert" none (some 0) (some 1)) rfl "").1 rfl,
   (printers_complete exampleHeap exampleHeap_wellTyped 9
      (.Woman [] "Susan" none (some 6) (some 8)) rfl "").2 rfl⟩

/-! ## Repeating a traversal with a printing visitor -/

theorem acceptChildren_out (f : Ptr → String → Option (Except Fault String))
    (hf : ∀ c out, f c out = (f c "").map (Except.map (out ++ ·))) :
    ∀ (cs : List Ptr) (out : String),
      acceptChildren f cs out = (acceptChildren f cs "").map (Except.map (out ++ ·)) := by
  intro cs
  induction cs with
  | nil => intro out; simp [acceptChildren, Except.map]
  | cons c cs ih =>
    intro out
    rw [acceptChildren_cons, acceptChildren_cons, hf c out]
    cases hc : f c "" with
    | none => simp
    | some r =>
      cases r with
      | error e => simp [Except.map]
      | ok t1 =>
        simp only [Option.map_some', Except.map]
        rw [ih (out ++ t1), ih t1]
        cases acceptChildren f cs "" with
        | none => simp
        | some r2 =>
          cases r2 with
          | error e => simp [Except.map]
          | ok t2 => simp [Except.map, String.append_assoc]

/-- The text a traversal with a visitor that only emits output appends to the stream does
    not depend on what the stream already holds. -/
theorem accept_out (v : PersonVisitor String) (hv : OnlyEmits v) (h : Heap) :
    ∀ (n : Nat) (p : Ptr) (out : String),
      accept v h n p out = (accept v h n p "").map (Except.map (out ++ ·)) := by
  intro n
  induction n with
  | zero => intro p out; simp [accept]
  | succ n ih =>
    intro p out
    rw [accept_succ_eq, accept_succ_eq]
    cases hd : deref h p with
    | error e => simp [Except.map]
    | ok pp =>
      cases pp with
      | Man l f sp fa mo =>
        simp only [Option.map_some']
        rw [(hv h p out).1]
      | Woman cs f sp fa mo =>
        simp only
        rw [(hv h p out).2]
        cases hw : v.visitWoman h p "" with
        | error e => simp [Except.map]
        | ok o1 =>
          simp only [Except.map]
          rw [acceptChildren_out _ ih cs (out ++ o1), acceptChildren_out _ ih cs o1]
          cases acceptChildren (accept v h n) cs "" with
          | none => simp
          | some r2 =>
            cases r2 with
            | error e => simp [Except.map]
            | ok t2 => simp [Except.map, String.append_assoc]

theorem namePrinter_onlyEmits : OnlyEmits NamePrinter := by
  intro h p out
  constructor
  · simp only [NamePrinter]
    rcases derefMan_cases h p with ⟨e, he⟩ | ⟨l, f, sp, fa, mo, hm, -⟩
    · simp [he, Except.map]
    · simp [hm, Except.map, Person.getLastName, Person.getFirstName, String.append_assoc]
  · simp only [NamePrinter]
    rcases derefWoman_cases h p with ⟨e, he, -⟩ | ⟨cs, f, sp, fa, mo, hw, -⟩
    · simp [he, Except.map]
    · simp only [hw, Person.getSpouse, Person.getFather, Person.getFirstName]
      by_cases hsp : sp = none
      · by_cases hfa : fa = none
        · simp [hsp, hfa, Except.map, String.append_assoc]
        · rcases derefMan_cases h fa with ⟨e, he⟩ | ⟨l2, f2, sp2, fa2, mo2, hm, -⟩
          · simp [hsp, hfa, he, Except.map]
          · simp [hsp, hfa, hm, Except.map, Person.getLastName, String.append_assoc]
      · rcases derefMan_cases h sp with ⟨e, he⟩ | ⟨l2, f2, sp2, fa2, mo2, hm, -⟩
        · simp [hsp, he, Except.map]
        · simp [hsp, hm, Except.map, Person.getLastName, String.append_assoc]

theorem maidenNamePrinter_visitWoman_out (h : Heap) (p : Ptr) (out : String) :
    MaidenNamePrinter.visitWoman h p out =
      (MaidenNamePrinter.visitWoman h p "").map (out ++ ·) := by
  simp only [MaidenNamePrinter.visitWoman]
  rcases derefWoman_cases h p with ⟨e, he, -⟩ | ⟨cs, f, sp, fa, mo, hw, -⟩
  · simp [he, Except.map]
  · simp only [hw, Person.getFather, Person.getFirstName]
    by_cases hfa : fa = none
    · simp [hfa, Except.map, String.append_assoc]
    · rcases derefMan_cases h fa with ⟨e, he⟩ | ⟨l2, f2, sp2, fa2, mo2, hm, -⟩
      · simp [hfa, he, Except.map]
      · simp [hfa, hm, Except.map, Person.getLastName, String.append_assoc]

theorem maidenNamePrinter_onlyEmits : OnlyEmits MaidenNamePrinter := by
  intro h p out
  refine ⟨?_, maidenNamePrinter_visitWoman_out h p out⟩
  simp only [MaidenNamePrinter, MaidenNamePrinter.visitMan]
  rcases derefMan_cases h p with ⟨e, he⟩ | ⟨l, f, sp, fa, mo, hm, -⟩
  · simp [he, Except.map]
  · simp only [hm, Person.getSpouse]
    by_cases hsp : sp = none
    · simp [hsp, Except.map]
    · simp only [ne_eq, hsp, not_false_eq_true, if_true]
      exact maidenNamePrinter_visitWoman_out h sp out

theorem printNames_out (h : Heap) :
    ∀ (cs : List Ptr) (out : String),
      ChildrenPrinter.printNames h cs out =
        (ChildrenPrinter.printNames h cs "").map (out ++ ·) := by
  intro cs
  induction cs with
  | nil => intro out; simp [ChildrenPrinter.printNames, Except.map]
  | cons c cs ih =>
    intro out
    unfold ChildrenPrinter.printNames
    cases hd : deref h c with
    | error e => simp [Except.map]
    | ok pc =>
      simp only
      rw [ih (out ++ pc.getFirstName ++ ", "), ih ("" ++ pc.getFirstName ++ ", ")]
      cases ChildrenPrinter.printNames h cs "" with
      | error e => simp [Except.map]
      | ok o => simp [Except.map, String.append_assoc]

theorem childrenPrinter_onlyEmits : OnlyEmits ChildrenPrinter := by
  intro h p out
  constructor
  · simp only [ChildrenPrinter]
    rcases derefMan_cases h p with ⟨e, he⟩ | ⟨l, f, sp, fa, mo, hm, -⟩
    · simp [he, Except.map]
    · simp only [hm, Person.getSpouse, Person.getFirstName]
      by_cases hsp : sp = none
      · simp [hsp, Except.map, String.append_assoc]
      · rcases derefWoman_cases h sp with ⟨e, he, -⟩ | ⟨cs, f2, sp2, fa2, mo2, hw, -⟩
        · simp [hsp, he, Except.map]
        · simp only [ne_eq, hsp, not_false_eq_true, if_true, hw, Person.getChildren]
          rw [printNames_out h cs (out ++ f ++ ": "), printNames_out h cs ("" ++ f ++ ": ")]
          cases ChildrenPrinter.printNames h cs "" with
          | error e => simp [Except.map]
          | ok o => simp [Except.map, String.append_assoc]
  · simp only [ChildrenPrinter]
    rcases derefWoman_cases h p with ⟨e, he, -⟩ | ⟨cs, f, sp, fa, mo, hw, -⟩
    · simp [he, Except.map]
    · simp only [hw, Person.getChildren, Person.getFirstName]
      rw [printNames_out h cs (out ++ f ++ ": "), printNames_out h cs ("" ++ f ++ ": ")]
      cases ChildrenPrinter.printNames h cs "" with
      | error e => simp [Except.map]
      | ok o => simp [Except.map, String.append_assoc]

/-- C17: for `NamePrinter`, `MaidenNamePrinter` and `ChildrenPrinter`, whose visits call
    no setter (the traversal takes the tree as an argument and hands back the stream
    only, so the tree of the second traversal is the tree of the first): when a traversal
    from an empty stream has written `lines`, visiting the persons `t` in order, the
    same traversal run again on the same tree, from whatever the stream and the record
    hold by then, appends exactly `lines` again and visits exactly `t` again, in the same
    order. -/
theorem printers_repeatable (v : PersonVisitor String)
    (hv : v = NamePrinter ∨ v = MaidenNamePrinter ∨ v = ChildrenPrinter)
    (h : Heap) (n : Nat) (p : Ptr) (lines : String)
    (h1 : accept v h n p "" = some (.ok lines)) :
    ∃ t, accept (Logged v) h n p ("", []) = some (.ok (lines, t)) ∧
      accept (Logged v) h n p (lines, t) = some (.ok (lines ++ lines, t ++ t)) ∧
      ∀ out log, accept (Logged v) h n p (out, log) = some (.ok (out ++ lines, log ++ t)) := by
  have he : OnlyEmits v := by
    rcases hv with rfl | rfl | rfl
    · exact namePrinter_onlyEmits
    · exact maidenNamePrinter_onlyEmits
    · exact childrenPrinter_onlyEmits
  obtain ⟨t, ht, hl⟩ := accept_logged v h n p "" [] lines h1
  have key : ∀ out log,
      accept (Logged v) h n p (out, log) = some (.ok (out ++ lines, log ++ t)) := by
    intro out log
    have h2 : accept v h n p out = some (.ok (out ++ lines)) := by
      rw [accept_out v he h n p out, h1]
      rfl
    obtain ⟨t2, ht2, hl2⟩ := accept_logged v h n p out log (out ++ lines) h2
    rw [accept_recorder_log h n p log, ht] at ht2
    have e : t2 = log ++ t := by
      simp only [Option.map_some', Except.map, Option.some.injEq, Except.ok.injEq] at ht2
      exact ht2.symm
    rw [hl2, e]
  exact ⟨t, hl, key lines t, key⟩

theorem printers_repeatable_witness :
    ∃ t, accept (Logged ChildrenPrinter) exampleHeap 3 (some 2) ("", []) =
        some (.ok ("Patricia: Michael, Barbara, \nMichael: Susan, \nBarbara: \n", t)) ∧
      accept (Logged ChildrenPrinter) exampleHeap 3 (some 2)
          ("Patricia: Michael, Barbara, \nMichael: Susan, \nBarbara: \n", t) =
        some (.ok ("Patricia: Michael, Barbara, \nMichael: Susan, \nBarbara: \n" ++
          "Patricia: Michael, Barbara, \nMichael: Susan, \nBarbara: \n", t ++ t)) :=
  (printers_repeatable ChildrenPrinter (Or.inr (Or.inr rfl)) exampleHeap 3 (some 2)
    "Patricia: Michael, Barbara, \nMichael: Susan, \nBarbara: \n" rfl).imp
    (fun _ hh => ⟨hh.1, hh.2.1⟩)

/-! ## The visiting order depends on the children lists only -/

theorem sameTree_lookup (h1 h2 : Heap) (hs : SameTree h1 h2) :
    ∀ a : Nat, (h1[a]? = none ∧ h2[a]? = none) ∨
      ∃ p1 p2, h1[a]? = some p1 ∧ h2[a]? = some p2 ∧ p1.sameChildren p2 := by
  unfold SameTree at hs
  induction hs with
  | nil => intro a; exact Or.inl ⟨rfl, rfl⟩
  | cons hp _ ih =>
    intro a
    cases a with
    | zero => exact Or.inr ⟨_, _, by simp, by simp, hp⟩
    | succ a => simpa using ih a

/-- On two trees with the same persons and the same children lists the recording visitor
    has the same outcome, at every depth and from every pointer. -/
theorem accept_recorder_sameTree (h1 h2 : Heap) (hs : SameTree h1 h2) :
    ∀ (n : Nat) (p : Ptr) (log : List Nat),
      accept Recorder h1 n p log = accept Recorder h2 n p log := by
  intro n
  induction n with
  | zero => intro p log; rfl
  | succ n ih =>
    intro p log
    rw [accept_succ_eq, accept_succ_eq]
    cases p with
    | none => rfl
    | some a =>
      rcases sameTree_lookup h1 h2 hs a with ⟨e1, e2⟩ | ⟨p1, p2, e1, e2, hp⟩
      · simp [deref, e1, e2]
      · cases p1 with
        | Man l1 f1 s1 fa1 mo1 =>
          cases p2 with
          | Man l2 f2 s2 fa2 mo2 => simp [deref, e1, e2, recorder_visitMan]
          | Woman cs2 f2 s2 fa2 mo2 => exact absurd hp (by simp [Person.sameChildren])
        | Woman cs1 f1 s1 fa1 mo1 =>
          cases p2 with
          | Man l2 f2 s2 fa2 mo2 => exact absurd hp (by simp [Person.sameChildren])
          | Woman cs2 f2 s2 fa2 mo2 =>
            have hcs : cs1 = cs2 := by simpa [Person.sameChildren] using hp
            subst hcs
            have hf : accept Recorder h1 n = accept Recorder h2 n := by
              funext c l
              exact ih c l
            simp [deref, e1, e2, recorder_visitWoman, hf]

/-- C18: for every two trees with the same persons and the same children lists, which
    may differ in names and in spouse, father and mother links, and for every start: the
    recording visitor has the same outcome on both, and whenever two visitors, the same or
    different, complete their traversals, one on each tree, they were invoked on the same
    persons in the same order. -/
theorem visiting_order_depends_on_children_only (h1 h2 : Heap) (hs : SameTree h1 h2)
    (p : Ptr) :
    (∀ n, accept Recorder h1 n p [] = accept Recorder h2 n p []) ∧
    ∀ (σ τ : Type) (v1 : PersonVisitor σ) (v2 : PersonVisitor τ) (n m : Nat)
      (s1 r1 : σ) (s2 r2 : τ),
      accept v1 h1 n p s1 = some (.ok r1) → accept v2 h2 m p s2 = some (.ok r2) →
      ∃ t, accept (Logged v1) h1 n p (s1, []) = some (.ok (r1, t)) ∧
        accept (Logged v2) h2 m p (s2, []) = some (.ok (r2, t)) := by
  refine ⟨fun n => accept_recorder_sameTree h1 h2 hs n p [], ?_⟩
  intro σ τ v1 v2 n m s1 r1 s2 r2 hr1 hr2
  obtain ⟨t1, ht1, hl1⟩ := accept_logged v1 h1 n p s1 [] r1 hr1
  obtain ⟨t2, ht2, hl2⟩ := accept_logged v2 h2 m p s2 [] r2 hr2
  refine ⟨t1, hl1, ?_⟩
  rw [accept_recorder_sameTree h1 h2 hs n p []] at ht1
  have e1 := accept_mono Recorder h2 n (max n m) (le_max_left _ _) _ _ _ ht1
  have e2 := accept_mono Recorder h2 m (max n m) (le_max_right _ _) _ _ _ ht2
  rw [e1] at e2
  have e : t1 = t2 := Except.ok.inj (Option.some.inj e2)
  rw [hl2, e]

/-- The example tree with every name changed and every spouse, father and mother link
    cleared. -/
theorem exampleHeap_sameTree :
    SameTree exampleHeap
      [ .Man "A" "a" none none none, .Woman [some 2, some 4, some 5] "b" none none none,
        .Woman [some 6, some 7] "c" none none none, .Man "D" "d" none none none,
        .Man "E" "e" none none none, .Woman [] "f" none none none,
        .Man "G" "g" none none none, .Woman [] "h" none none none,
        .Woman [some 9] "i" none none none, .Woman [] "j" none none none ] := by
  unfold SameTree exampleHeap
  repeat (first | exact List.Forall₂.nil | refine List.Forall₂.cons ?_ ?_)
  all_goals simp [Person.sameChildren]

theorem visiting_order_depends_on_children_only_witness :
    accept Recorder exampleHeap 3 (some 1) [] =
      accept Recorder
        [ .Man "A" "a" none none none, .Woman [some 2, some 4, some 5] "b" none none none,
          .Woman [some 6, some 7] "c" none none none, .Man "D" "d" none none none,
          .Man "E" "e" none none none, .Woman [] "f" none none none,
          .Man "G" "g" none none none, .Woman [] "h" none none none,
          .Woman [some 9] "i" none none none, .Woman [] "j" none none none ] 3 (some 1) [] :=
  (visiting_order_depends_on_children_only _ _ exampleHeap_sameTree (some 1)).1 3

/-! ## Termination and the number of visits -/

theorem forestNodes_of_records (h : Heap) (n : Nat)
    (ih : ∀ (a : Nat) (t : List Nat), accept Recorder h n (some a) [] = some (.ok t) →
      treeNodes h n a = some t.length)
    (cs : List Ptr) (ts : List (List Nat))
    (hts : List.Forall₂ (fun c tc => accept Recorder h n c [] = some (.ok tc)) cs ts) :
    forestNodes (treeNodes h n) cs = some ts.flatten.length := by
  induction hts with
  | nil => rfl
  | cons hc _ ih2 =>
    obtain ⟨c1, rest, rfl, -, -⟩ := accept_recorder_head h n _ _ hc
    simp [forestNodes, ih c1 _ hc, ih2]

/-- The record of a completed traversal has as many entries as the children-list tree
    under the start has nodes. -/
theorem treeNodes_of_record (h : Heap) :
    ∀ (n a : Nat) (t : List Nat), accept Recorder h n (some a) [] = some (.ok t) →
      treeNodes h n a = some t.length := by
  intro n
  induction n with
  | zero => intro a t ht; simp [accept] at ht
  | succ n ih =>
    intro a t ht
    obtain ⟨a1, rest, ha1, hlt, -⟩ := accept_recorder_head h (n + 1) (some a) t ht
    cases ha1
    cases hg : h[a]? with
    | none => simp [accept, deref, hg] at ht
    | some pp =>
      cases pp with
      | Man l f sp fa mo =>
        rw [accept_recorder_man h n a l f sp fa mo hg] at ht
        cases ht
        simp [treeNodes, hlt, childrenOf, hg, forestNodes]
      | Woman cs f sp fa mo =>
        obtain ⟨ts, hts, rfl⟩ := (accept_recorder_woman h n a cs f sp fa mo hg t).1 ht
        simp [treeNodes, hlt, childrenOf_woman h a cs f sp fa mo hg,
          forestNodes_of_records h n ih cs ts hts]

/-- C19: in every tree in which no woman is reached from herself through children lists,
    whatever the spouse, father and mother links are: `accept` finishes from every root,
    for every visitor and every state of it, with the same outcome at every larger
    depth; when the entries of the children lists point to persons, the traversal from a
    person visits as many persons as the children-list tree under that person has nodes,
    a `Man` being a leaf; and every visitor whose traversal completes was invoked that
    many times. -/
theorem accept_terminates_and_counts (h : Heap) (hac : Acyclic h) :
    (∀ (σ : Type) (v : PersonVisitor σ) (p : Ptr) (s : σ),
      ∃ n r, ∀ m, n ≤ m → accept v h m p s = some r) ∧
    (ChildrenValid h → ∀ a, a < h.length →
      ∃ n t, ∀ m, n ≤ m →
        accept Recorder h m (some a) [] = some (.ok t) ∧ treeNodes h m a = some t.length) ∧
    ∀ (σ : Type) (v : PersonVisitor σ) (m a : Nat) (s r : σ),
      accept v h m (some a) s = some (.ok r) →
      ∃ t, accept (Logged v) h m (some a) (s, []) = some (.ok (r, t)) ∧
        treeNodes h m a = some t.length := by
  refine ⟨?_, ?_, ?_⟩
  · intro σ v p s
    obtain ⟨n, r, hn⟩ := accept_terminates v h hac p s
    exact ⟨n, r, fun m hm => accept_mono v h n m hm p s r hn⟩
  · intro hv a ha
    obtain ⟨n, t, hn⟩ := accept_recorder_total h hv hac a ha
    exact ⟨n, t, fun m hm => ⟨hn m hm, treeNodes_of_record h m a t (hn m hm)⟩⟩
  · intro σ v m a s r hr
    obtain ⟨t, ht, hl⟩ := accept_logged v h m (some a) s [] r hr
    exact ⟨t, hl, treeNodes_of_record h m a t ht⟩

theorem accept_terminates_and_counts_witness :
    (exampleHeap[0]?.map Person.getSpouse = some (some 1) ∧
      exampleHeap[1]?.map Person.getSpouse = some (some 0)) ∧
    (∃ n r, ∀ m, n ≤ m → accept ChildrenPrinter exampleHeap m (some 1) "" = some r) ∧
    ∃ n t, ∀ m, n ≤ m →
      accept Recorder exampleHeap m (some 1) [] = some (.ok t) ∧
        treeNodes exampleHeap m 1 = some t.length :=
  ⟨⟨rfl, rfl⟩,
   (accept_terminates_and_counts exampleHeap exampleHeap_acyclic).1 String ChildrenPrinter
     (some 1) "",
   (accept_terminates_and_counts exampleHeap exampleHeap_acyclic).2.1
     exampleHeap_childrenValid 1 (by decide)⟩

end Genes
